import Mathlib

/-!
Shallow embedding of the NextBot behavior engine (src/source/sdk/NextBotBehavior.h).

The engine is a hierarchical action/behavior stack machine.  C++ objects of class
`Action<Actor>` are modelled as nodes in an explicit heap (an association list from
numeric ids, standing for object addresses, to node records); `NULL` pointers are
`Option.none`.  All C++ loops and recursions are given explicit fuel, since the raw
pointer graph is not well-founded in general.  Virtual hooks (`OnStart`, `Update`,
`OnSuspend`, `OnResume`, the event handlers and query handlers of concrete derived
actions) are parameters of the machine; the machine records every hook invocation,
and every object destruction, in a trace.  The `Actor*`/`Behavior*`/`float interval`
arguments carried by the C++ code are elided: they are opaque to the engine and have
no effect on control flow.  Calls the C++ program cannot make safely (dereferencing
a null or dangling pointer) and fuel exhaustion are modelled as a stuck outcome
(`Option.none` in the value position of a result triple).
-/

namespace NextBot

/-- `enum ActionResultType` from NextBotBehavior.h. -/
inductive ActionResultType where
  | CONTINUE
  | CHANGE_TO
  | SUSPEND_FOR
  | DONE
  | SUSTAIN
deriving DecidableEq

export ActionResultType (CONTINUE CHANGE_TO SUSPEND_FOR DONE SUSTAIN)

/-- `enum EventResultPriorityType`: `RESULT_NONE < RESULT_TRY < RESULT_IMPORTANT < RESULT_CRITICAL`. -/
inductive EventResultPriorityType where
  | RESULT_NONE
  | RESULT_TRY
  | RESULT_IMPORTANT
  | RESULT_CRITICAL
deriving DecidableEq

export EventResultPriorityType (RESULT_NONE RESULT_TRY RESULT_IMPORTANT RESULT_CRITICAL)

/-- Numeric value of the priority enum, used for the C++ `>` comparison on priorities. -/
def EventResultPriorityType.toNat : EventResultPriorityType → Nat
  | RESULT_NONE => 0
  | RESULT_TRY => 1
  | RESULT_IMPORTANT => 2
  | RESULT_CRITICAL => 3

/-- The C++ `result.m_priority > m_eventResult.m_priority` comparison. -/
def priGt (a b : EventResultPriorityType) : Bool := b.toNat < a.toNat

/-- `struct ActionResult` (via `IActionResult`): a result type, an action pointer, a reason. -/
structure ActionResult where
  m_type : ActionResultType
  m_action : Option Nat
  m_reason : Option String
deriving DecidableEq

/-- `struct EventDesiredResult`: an `IActionResult` plus a priority. -/
structure EventDesiredResult where
  m_type : ActionResultType
  m_action : Option Nat
  m_priority : EventResultPriorityType
  m_reason : Option String
deriving DecidableEq

def ActionResult.IsDone (r : ActionResult) : Bool := r.m_type = DONE

def ActionResult.IsContinue (r : ActionResult) : Bool := r.m_type = CONTINUE

def ActionResult.IsRequestingChange (r : ActionResult) : Bool :=
  r.m_type = CHANGE_TO ∨ r.m_type = SUSPEND_FOR ∨ r.m_type = DONE

def EventDesiredResult.IsContinue (r : EventDesiredResult) : Bool := r.m_type = CONTINUE

def EventDesiredResult.IsRequestingChange (r : EventDesiredResult) : Bool :=
  r.m_type = CHANGE_TO ∨ r.m_type = SUSPEND_FOR ∨ r.m_type = DONE

/-- `Action::TryContinue(priority)`. -/
def TryContinue (priority : EventResultPriorityType) : EventDesiredResult :=
  ⟨CONTINUE, none, priority, none⟩

/-- `Action::TryChangeTo(action, priority, reason)`. -/
def TryChangeTo (action : Option Nat) (priority : EventResultPriorityType)
    (reason : Option String) : EventDesiredResult :=
  ⟨CHANGE_TO, action, priority, reason⟩

/-- `Action::TrySuspendFor(action, priority, reason)`. -/
def TrySuspendFor (action : Option Nat) (priority : EventResultPriorityType)
    (reason : Option String) : EventDesiredResult :=
  ⟨SUSPEND_FOR, action, priority, reason⟩

/-- `Action::TryDone(priority, reason)`. -/
def TryDone (priority : EventResultPriorityType) (reason : Option String) : EventDesiredResult :=
  ⟨DONE, none, priority, reason⟩

/-- `Action::TryToSustain(priority, reason)`. -/
def TryToSustain (priority : EventResultPriorityType) (reason : Option String) : EventDesiredResult :=
  ⟨SUSTAIN, none, priority, reason⟩

/-- `Action::Continue()`. -/
def Continue : ActionResult := ⟨CONTINUE, none, none⟩

/-- `Action::ChangeTo(action, reason)`. -/
def ChangeTo (action : Option Nat) (reason : Option String) : ActionResult :=
  ⟨CHANGE_TO, action, reason⟩

/-- `Action::Done(reason)`. -/
def Done (reason : Option String) : ActionResult := ⟨DONE, none, reason⟩

/--
The data fields of `class Action<Actor>`.  Pointer fields hold node ids.
`name` is the byte string returned by the pure virtual `GetName()` (a C string,
modelled up to its NUL terminator; it contains no 0 byte).
`m_actor` and `m_behavior` are elided: the engine never branches on them.
-/
structure Node where
  name : List Nat
  m_parent : Option Nat
  m_child : Option Nat
  m_buriedUnderMe : Option Nat
  m_coveringMe : Option Nat
  m_isStarted : Bool
  m_isSuspended : Bool
  m_eventResult : EventDesiredResult
deriving DecidableEq

/-- `Action::Action()`: all pointers null, not started, not suspended,
pending slot `TryContinue(RESULT_NONE)`. -/
def Node.init (name : List Nat) : Node :=
  { name := name
    m_parent := none
    m_child := none
    m_buriedUnderMe := none
    m_coveringMe := none
    m_isStarted := false
    m_isSuspended := false
    m_eventResult := TryContinue RESULT_NONE }

/-- The C++ object heap: an association list from object ids to live `Action` nodes. -/
abbrev Heap := List (Nat × Node)

def lookupH : Heap → Nat → Option Node
  | [], _ => none
  | (k, n) :: rest, i => if k = i then some n else lookupH rest i

def modifyH : Heap → Nat → (Node → Node) → Heap
  | [], _, _ => []
  | (k, n) :: rest, i, f => if k = i then (k, f n) :: rest else (k, n) :: modifyH rest i f

def setH (h : Heap) (i : Nat) (n : Node) : Heap := modifyH h i (fun _ => n)

def removeH : Heap → Nat → Heap
  | [], _ => []
  | (k, n) :: rest, i => if k = i then removeH rest i else (k, n) :: removeH rest i

def keysH (h : Heap) : List Nat := h.map Prod.fst

/-- Trace events: every virtual hook invocation performed by the engine, every
object destruction, and every delivery of an event to a contained responder. -/
inductive Ev where
  | evOnStart (who : Nat) (prior : Option Nat)
  | evOnEnd (who : Nat) (next : Option Nat)
  | evOnSuspend (who : Nat) (interrupting : Option Nat)
  | evOnResume (who : Nat) (interrupting : Option Nat)
  | evUpdate (who : Nat)
  | evDestroy (who : Nat)
  | evHandler (who : Nat)
  | evForward (who : Nat)
deriving DecidableEq

abbrev Trace := List Ev

/-- Sequencing of two stateful, traced, possibly-stuck computations. -/
def mbind {α β : Type} (x : Heap × Trace × Option α) (f : Heap → α → Heap × Trace × Option β) :
    Heap × Trace × Option β :=
  match x with
  | (h, t, none) => (h, t, none)
  | (h, t, some a) =>
    match f h a with
    | (h2, t2, b) => (h2, t ++ t2, b)

/-- Prepend a trace event to a computation result. -/
def preTr {α : Type} (e : Ev) (x : Heap × Trace × Option α) : Heap × Trace × Option α :=
  (x.1, e :: x.2.1, x.2.2)

/--
What a concrete derived action's hook bodies return.  A C++ hook body builds its
`ActionResult` through the `Continue()` / `ChangeTo()` / `SuspendFor()` / `Done()`
constructor methods of `Action`; `SuspendFor` additionally clears the calling
action's own pending event slot, so the constructor used must be remembered.
-/
inductive HookRes where
  | hContinue
  | hChangeTo (action : Option Nat) (reason : Option String)
  | hSuspendFor (action : Option Nat) (reason : Option String)
  | hDone (reason : Option String)
deriving DecidableEq

/-- `Action::SuspendFor(action, reason)`: clears the calling action's pending
event slot, then builds a `SUSPEND_FOR` result. -/
def SuspendFor (h : Heap) (this : Nat) (action : Option Nat) (reason : Option String) :
    Heap × ActionResult :=
  (modifyH h this (fun n => { n with m_eventResult := TryContinue RESULT_NONE }),
   ⟨SUSPEND_FOR, action, reason⟩)

/-- Run the result-constructor call made by a hook body of action `this`. -/
def runHookRes (h : Heap) (this : Nat) : HookRes → Heap × ActionResult
  | .hContinue => (h, Continue)
  | .hChangeTo a r => (h, ChangeTo a r)
  | .hSuspendFor a r => SuspendFor h this a r
  | .hDone r => (h, Done r)

/-- The virtual hooks supplied by concrete derived actions, indexed by node id.
Base-class defaults: every lifecycle hook returns `Continue()`, every event handler
returns `TryContinue()`, `InitialContainedAction` returns `NULL`. -/
structure Hooks where
  onStart : Nat → HookRes
  update : Nat → HookRes
  onSuspend : Nat → HookRes
  onResume : Nat → HookRes
  initialContainedAction : Nat → Option Nat
  eventHandler : Nat → EventDesiredResult

/-- The base-class default hooks. -/
def defaultHooks : Hooks :=
  { onStart := fun _ => .hContinue
    update := fun _ => .hContinue
    onSuspend := fun _ => .hContinue
    onResume := fun _ => .hContinue
    initialContainedAction := fun _ => none
    eventHandler := fun _ => TryContinue RESULT_TRY }

/-- C `strncmp` on NUL-terminated strings modelled as byte lists (bytes are nonzero;
the terminator is implicit at the end of the list). -/
def strncmp : List Nat → List Nat → Nat → Int
  | _, _, 0 => 0
  | s1, s2, n + 1 =>
    let c1 := s1.headD 0
    let c2 := s2.headD 0
    if c1 ≠ c2 then (c1 : Int) - (c2 : Int)
    else if c1 = 0 then 0
    else strncmp s1.tail s2.tail n

/-- `Action::IsNamed(name)`: `return strncmp(GetName(), name, 32);` — the raw
`int` is converted to `bool`, so the function yields `true` exactly when
`strncmp` is nonzero. -/
def IsNamed (self : Node) (name : List Nat) : Bool :=
  strncmp self.name name 32 ≠ 0

/-- The loop body of `Action::IsOutOfScope`: walk the `m_buriedUnderMe` chain
starting from the given pointer, returning `true` at the first node whose pending
event slot holds `CHANGE_TO` or `DONE`. -/
def outOfScopeLoop : Nat → Heap → Option Nat → Bool
  | 0, _, _ => false
  | _ + 1, _, none => false
  | fuel + 1, h, some u =>
    match lookupH h u with
    | none => false
    | some un =>
      if un.m_eventResult.m_type = CHANGE_TO ∨ un.m_eventResult.m_type = DONE then true
      else outOfScopeLoop fuel h un.m_buriedUnderMe

/-- The list of (live) nodes visited by a walk along `m_buriedUnderMe` links. -/
def buriedList : Nat → Heap → Option Nat → List Nat
  | 0, _, _ => []
  | _ + 1, _, none => []
  | fuel + 1, h, some u =>
    match lookupH h u with
    | none => []
    | some un => u :: buriedList fuel h un.m_buriedUnderMe

/-- The buried-stack walk of `Action::ProcessPendingEvents`: find the first buried
node whose pending slot holds `SUSPEND_FOR`, consume (clear) that slot and return
its content as an `ActionResult`. -/
def pendingEventsWalk : Nat → Heap → Option Nat → Heap × ActionResult
  | 0, h, _ => (h, Continue)
  | _ + 1, h, none => (h, Continue)
  | fuel + 1, h, some u =>
    match lookupH h u with
    | none => (h, Continue)
    | some un =>
      if un.m_eventResult.m_type = SUSPEND_FOR then
        (modifyH h u (fun n => { n with m_eventResult := TryContinue RESULT_NONE }),
         ⟨un.m_eventResult.m_type, un.m_eventResult.m_action, un.m_eventResult.m_reason⟩)
      else pendingEventsWalk fuel h un.m_buriedUnderMe

/-- `Action::ProcessPendingEvents()`: if this node's own slot requests a change,
consume it; otherwise scan the buried stack for a pending `SUSPEND_FOR`. -/
def ProcessPendingEvents (fuel : Nat) (h : Heap) (this : Nat) : Heap × ActionResult :=
  match lookupH h this with
  | none => (h, Continue)
  | some a =>
    if a.m_eventResult.IsRequestingChange then
      (modifyH h this (fun n => { n with m_eventResult := TryContinue RESULT_NONE }),
       ⟨a.m_eventResult.m_type, a.m_eventResult.m_action, a.m_eventResult.m_reason⟩)
    else pendingEventsWalk fuel h a.m_buriedUnderMe

/-- The `while (topAction->m_coveringMe) topAction = topAction->m_coveringMe;` loop
of the `SUSPEND_FOR` case of `Action::ApplyResult`. -/
def topOfCoveringChain : Nat → Heap → Nat → Option Nat
  | 0, _, _ => none
  | fuel + 1, h, a =>
    match lookupH h a with
    | none => none
    | some an =>
      match an.m_coveringMe with
      | none => some a
      | some c => topOfCoveringChain fuel h c

mutual

/-- `Action::~Action()`: fix the parent's active-child pointer, delete the child
stack, clear the buried sibling's covering link, delete everything stacked on top,
delete any action held in the pending event slot, then free this object. -/
def destroyAction : Nat → Heap → Nat → Heap × Trace × Option Unit
  | 0, h, _ => (h, [], none)
  | fuel + 1, h, this =>
    match lookupH h this with
    | none => (h, [], none)
    | some a =>
      let h :=
        match a.m_parent with
        | some p =>
          match lookupH h p with
          | some pn => if pn.m_child = some this then setH h p { pn with m_child := a.m_buriedUnderMe } else h
          | none => h
        | none => h
      mbind (destroyChain fuel h a.m_child) fun h _ =>
        match lookupH h this with
        | none => (h, [], none)
        | some a2 =>
          let h :=
            match a2.m_buriedUnderMe with
            | some b => modifyH h b (fun n => { n with m_coveringMe := none })
            | none => h
          mbind
            (match (lookupH h this).bind Node.m_coveringMe with
             | some c => destroyAction fuel h c
             | none => (h, [], some ())) fun h _ =>
            mbind
              (match (lookupH h this).bind (fun n => n.m_eventResult.m_action) with
               | some ea => destroyAction fuel h ea
               | none => (h, [], some ())) fun h _ =>
              (removeH h this, [Ev.evDestroy this], some ())

/-- The child-deletion loop of `Action::~Action()`: walk the active child's buried
chain (saving each `m_buriedUnderMe` link before deleting) and delete every child. -/
def destroyChain : Nat → Heap → Option Nat → Heap × Trace × Option Unit
  | 0, h, _ => (h, [], none)
  | _ + 1, h, none => (h, [], some ())
  | fuel + 1, h, some c =>
    let next := (lookupH h c).bind Node.m_buriedUnderMe
    mbind (destroyAction fuel h c) fun h _ => destroyChain fuel h next

end

mutual

/-- `Action::InvokeOnEnd(me, behavior, nextAction)`: no-op if not started; clear
`m_isStarted`; cascade into the child stack; invoke the `OnEnd` hook; cascade into
whatever covers this node.  Does not delete anything or disturb pointers. -/
def InvokeOnEnd : Nat → Hooks → Heap → Nat → Option Nat → Heap × Trace × Option Unit
  | 0, _, h, _, _ => (h, [], none)
  | fuel + 1, hooks, h, this, nextAction =>
    match lookupH h this with
    | none => (h, [], none)
    | some a =>
      if a.m_isStarted = false then (h, [], some ())
      else
        let h := modifyH h this (fun n => { n with m_isStarted := false })
        mbind (invokeOnEndChain fuel hooks h a.m_child nextAction) fun h _ =>
          mbind (h, [Ev.evOnEnd this nextAction], some ()) fun h _ =>
            match (lookupH h this).bind Node.m_coveringMe with
            | none => (h, [], some ())
            | some c => InvokeOnEnd fuel hooks h c nextAction

/-- The child loop of `InvokeOnEnd`: tell each child in the child stack to leave,
without disturbing the list itself. -/
def invokeOnEndChain : Nat → Hooks → Heap → Option Nat → Option Nat → Heap × Trace × Option Unit
  | 0, _, h, _, _ => (h, [], none)
  | _ + 1, _, h, none, _ => (h, [], some ())
  | fuel + 1, hooks, h, some c, nextAction =>
    let next := (lookupH h c).bind Node.m_buriedUnderMe
    mbind (InvokeOnEnd fuel hooks h c nextAction) fun h _ =>
      invokeOnEndChain fuel hooks h next nextAction

end

/-- `Action::InvokeOnSuspend(me, behavior, interruptingAction)`: suspend the child
stack, set `m_isSuspended`, invoke the `OnSuspend` hook; if it returns `Done`, end
and delete this action and return what it buried, else return this action.  The
returned pointer is the new top of the stack. -/
def InvokeOnSuspend : Nat → Hooks → Heap → Nat → Option Nat → Heap × Trace × Option (Option Nat)
  | 0, _, h, _, _ => (h, [], none)
  | fuel + 1, hooks, h, this, interruptingAction =>
    match lookupH h this with
    | none => (h, [], none)
    | some a =>
      mbind
        (match a.m_child with
         | none => (h, [], some ())
         | some c =>
           mbind (InvokeOnSuspend fuel hooks h c interruptingAction) fun h newChild =>
             (modifyH h this (fun n => { n with m_child := newChild }), [], some ())) fun h _ =>
        let h := modifyH h this (fun n => { n with m_isSuspended := true })
        match runHookRes h this (hooks.onSuspend this) with
        | (h, result) =>
          preTr (Ev.evOnSuspend this interruptingAction)
            (if result.IsDone then
              mbind (InvokeOnEnd fuel hooks h this none) fun h _ =>
                let buried := (lookupH h this).bind Node.m_buriedUnderMe
                mbind (destroyAction fuel h this) fun h _ => (h, [], some buried)
            else (h, [], some (some this)))

mutual

/-- `Action::ApplyResult(me, behavior, result)`: the transition algorithm. -/
def ApplyResult : Nat → Hooks → Heap → Nat → ActionResult → Heap × Trace × Option (Option Nat)
  | 0, _, h, _, _ => (h, [], none)
  | fuel + 1, hooks, h, this, result =>
    match result.m_type with
    | CHANGE_TO =>
      match result.m_action with
      | none => (h, [], some (some this))
      | some newAction =>
        mbind (InvokeOnEnd fuel hooks h this (some newAction)) fun h _ =>
          match lookupH h this with
          | none => (h, [], none)
          | some athis =>
            mbind (InvokeOnStart fuel hooks h newAction (some this) athis.m_buriedUnderMe)
              fun h startResult =>
              mbind
                (if this = newAction then (h, [], some ()) else destroyAction fuel h this)
                fun h _ => ApplyResult fuel hooks h newAction startResult
    | SUSPEND_FOR =>
      match topOfCoveringChain (fuel + 1) h this with
      | none => (h, [], none)
      | some topAction =>
        mbind (InvokeOnSuspend fuel hooks h topAction result.m_action) fun h topAfter =>
          match result.m_action with
          | none => (h, [], none)
          | some newAction =>
            mbind (InvokeOnStart fuel hooks h newAction topAfter topAfter) fun h startResult =>
              ApplyResult fuel hooks h newAction startResult
    | DONE =>
      match lookupH h this with
      | none => (h, [], none)
      | some a =>
        let resumedAction := a.m_buriedUnderMe
        mbind (InvokeOnEnd fuel hooks h this resumedAction) fun h _ =>
          match resumedAction with
          | none =>
            mbind (destroyAction fuel h this) fun h _ => (h, [], some none)
          | some resumed =>
            mbind (InvokeOnResume fuel hooks h resumed (some this)) fun h resumeResult =>
              mbind (destroyAction fuel h this) fun h _ =>
                ApplyResult fuel hooks h resumed resumeResult
    | CONTINUE => (h, [], some (some this))
    | SUSTAIN => (h, [], some (some this))

/-- `Action::InvokeOnStart(me, behavior, priorAction, buriedUnderMeAction)`:
mark started, inherit the prior action's parent, become the parent's active child,
hook up the stack pointers, start the optional initial contained action, then
invoke the `OnStart` hook and return its result. -/
def InvokeOnStart : Nat → Hooks → Heap → Nat → Option Nat → Option Nat →
    Heap × Trace × Option ActionResult
  | 0, _, h, _, _, _ => (h, [], none)
  | fuel + 1, hooks, h, this, priorAction, buriedUnderMeAction =>
    match lookupH h this with
    | none => (h, [], none)
    | some _ =>
      let h := modifyH h this (fun n => { n with m_isStarted := true })
      mbind
        (match priorAction with
         | some p =>
           match lookupH h p with
           | none => (h, [], none)
           | some pn => (modifyH h this (fun n => { n with m_parent := pn.m_parent }), [], some ())
         | none => (h, [], some ())) fun h _ =>
        let h :=
          match (lookupH h this).bind Node.m_parent with
          | some par => modifyH h par (fun n => { n with m_child := some this })
          | none => h
        let h := modifyH h this (fun n => { n with m_buriedUnderMe := buriedUnderMeAction })
        let h :=
          match buriedUnderMeAction with
          | some b => modifyH h b (fun n => { n with m_coveringMe := some this })
          | none => h
        let h := modifyH h this (fun n => { n with m_coveringMe := none })
        let c0 := hooks.initialContainedAction this
        let h := modifyH h this (fun n => { n with m_child := c0 })
        mbind
          (match c0 with
           | none => (h, [], some ())
           | some c =>
             let h := modifyH h c (fun n => { n with m_parent := some this })
             mbind (ApplyResult fuel hooks h c (ChangeTo (some c) (some ("Starting child Action"))))
               fun h newChild =>
               (modifyH h this (fun n => { n with m_child := newChild }), [], some ())) fun h _ =>
          match runHookRes h this (hooks.onStart this) with
          | (h, result) => (h, [Ev.evOnStart this priorAction], some result)

/-- `Action::InvokeOnResume(me, behavior, interruptingAction)`: no-op (`Continue`)
if not suspended or if a change is already pending; otherwise clear the suspended
flag and covering link, become the parent's active child again, resume the child
stack, then invoke the `OnResume` hook and return its result. -/
def InvokeOnResume : Nat → Hooks → Heap → Nat → Option Nat → Heap × Trace × Option ActionResult
  | 0, _, h, _, _ => (h, [], none)
  | fuel + 1, hooks, h, this, interruptingAction =>
    match lookupH h this with
    | none => (h, [], none)
    | some a =>
      if a.m_isSuspended = false then (h, [], some Continue)
      else if a.m_eventResult.IsRequestingChange then (h, [], some Continue)
      else
        let h := modifyH h this (fun n => { n with m_isSuspended := false, m_coveringMe := none })
        let h :=
          match a.m_parent with
          | some p => modifyH h p (fun n => { n with m_child := some this })
          | none => h
        mbind
          (match (lookupH h this).bind Node.m_child with
           | none => (h, [], some ())
           | some c =>
             mbind (InvokeOnResume fuel hooks h c interruptingAction) fun h r =>
               mbind (ApplyResult fuel hooks h c r) fun h newChild =>
                 (modifyH h this (fun n => { n with m_child := newChild }), [], some ())) fun h _ =>
          match runHookRes h this (hooks.onResume this) with
          | (h, result) => (h, [Ev.evOnResume this interruptingAction], some result)

end

/-- `Action::InvokeUpdate(me, behavior, interval)`: yield `Done("Out of scope")` if
out of scope; yield `ChangeTo(this)` if not yet started; honor a pending event
result; otherwise update the child stack and then invoke the `Update` hook. -/
def InvokeUpdate : Nat → Hooks → Heap → Nat → Heap × Trace × Option ActionResult
  | 0, _, h, _ => (h, [], none)
  | fuel + 1, hooks, h, this =>
    match lookupH h this with
    | none => (h, [], none)
    | some a =>
      if outOfScopeLoop fuel h a.m_buriedUnderMe then
        (h, [], some (Done (some ("Out of scope"))))
      else if a.m_isStarted = false then
        (h, [], some (ChangeTo (some this) (some ("Starting Action"))))
      else
        match ProcessPendingEvents fuel h this with
        | (h, eventResult) =>
          if eventResult.IsContinue = false then (h, [], some eventResult)
          else
            mbind
              (match (lookupH h this).bind Node.m_child with
               | none => (h, [], some ())
               | some c =>
                 mbind (InvokeUpdate fuel hooks h c) fun h r =>
                   mbind (ApplyResult fuel hooks h c r) fun h newChild =>
                     (modifyH h this (fun n => { n with m_child := newChild }), [], some ())) fun h _ =>
              match runHookRes h this (hooks.update this) with
              | (h, result) => (h, [Ev.evUpdate this], some result)

/-- `Behavior::Update(me, interval)`: no-op when empty; otherwise apply the result
of `InvokeUpdate` on the top action and store the new top. -/
def BehaviorUpdate (fuel : Nat) (hooks : Hooks) (h : Heap) (m_action : Option Nat) :
    Heap × Trace × Option (Option Nat) :=
  match m_action with
  | none => (h, [], some none)
  | some a =>
    mbind (InvokeUpdate fuel hooks h a) fun h r => ApplyResult fuel hooks h a r

/-- `Action::StorePendingEventResult(result, eventName)`: the priority-merge rule
for the single pending event slot of a node. -/
def StorePendingEventResultM : Nat → Heap → Nat → EventDesiredResult → Heap × Trace × Option Unit
  | 0, h, _, _ => (h, [], none)
  | fuel + 1, h, this, result =>
    match lookupH h this with
    | none => (h, [], none)
    | some a =>
      if result.IsContinue then (h, [], some ())
      else if priGt result.m_priority a.m_eventResult.m_priority then
        mbind
          (if result.m_priority ≠ RESULT_NONE then
            match a.m_eventResult.m_action with
            | some old => destroyAction fuel h old
            | none => (h, [], some ())
          else (h, [], some ())) fun h _ =>
          (modifyH h this (fun n => { n with m_eventResult := result }), [], some ())
      else if result.m_priority = a.m_eventResult.m_priority ∧ a.m_eventResult.m_type = SUSTAIN then
        mbind
          (match a.m_eventResult.m_action with
           | some old => destroyAction fuel h old
           | none => (h, [], some ())) fun h _ =>
          (modifyH h this (fun n => { n with m_eventResult := result }), [], some ())
      else
        match result.m_action with
        | some x => destroyAction fuel h x
        | none => (h, [], some ())

/-- The handler walk of the `PROCESS_EVENT` macro: starting at the action the event
targets, invoke the handler; while it returns a `Continue` result, move to the
action buried underneath and repeat.  Returns the trace of handler invocations and
the stopping action with its non-`Continue` result, if the walk stopped. -/
def eventWalk : Nat → Hooks → Heap → Option Nat → Trace × Option (Nat × EventDesiredResult)
  | 0, _, _, _ => ([], none)
  | _ + 1, _, _, none => ([], none)
  | fuel + 1, hooks, h, some a =>
    let r := hooks.eventHandler a
    if r.IsContinue = false then ([Ev.evHandler a], some (a, r))
    else
      match eventWalk fuel hooks h ((lookupH h a).bind Node.m_buriedUnderMe) with
      | (t, res) => (Ev.evHandler a :: t, res)

mutual

/-- The body of the `PROCESS_EVENT` macro family: return immediately if this
action is not started; otherwise walk the buried stack invoking handlers, store a
non-`Continue` result into the stopping action's pending slot under the
priority-merge rule, and finally invoke the base-class event method. -/
def PROCESS_EVENT : Nat → Hooks → Heap → Nat → Heap × Trace × Option Unit
  | 0, _, h, _ => (h, [], none)
  | fuel + 1, hooks, h, this =>
    match lookupH h this with
    | none => (h, [], none)
    | some a =>
      if a.m_isStarted = false then (h, [], some ())
      else
        match eventWalk fuel hooks h (some this) with
        | (t1, stop) =>
          let storeRes : Heap × Trace × Option Unit :=
            match stop with
            | some sr => StorePendingEventResultM fuel h sr.1 sr.2
            | none => (h, [], some ())
          mbind (storeRes.1, t1 ++ storeRes.2.1, storeRes.2.2) fun h _ =>
            responderForward fuel hooks h this

/-- Modelled from the spec: the default `INextBotEventResponder` event method,
whose source file (NextBotEventResponderInterface.h) is not in the repository.
Per §4.5 delivery continues to the contained responders; for an `Action`,
`FirstContainedResponder()` is the active child and `NextContainedResponder()`
is `NULL`, so the event is forwarded to the active child, if any. -/
def responderForward : Nat → Hooks → Heap → Nat → Heap × Trace × Option Unit
  | 0, _, h, _ => (h, [], none)
  | fuel + 1, hooks, h, this =>
    match (lookupH h this).bind Node.m_child with
    | none => (h, [], some ())
    | some c => preTr (Ev.evForward c) (PROCESS_EVENT fuel hooks h c)

end

/-- `enum QueryResultType` (NextBotContextualQueryInterface): a tri-state answer
with `ANSWER_UNDEFINED` as the "no opinion" sentinel. -/
inductive QueryResultType where
  | ANSWER_NO
  | ANSWER_YES
  | ANSWER_UNDEFINED
deriving DecidableEq

export QueryResultType (ANSWER_NO ANSWER_YES ANSWER_UNDEFINED)

/-- The `for (action = m_action; action->m_child; action = action->m_child);` loop
of the query methods of `Behavior`: descend to the innermost active child. -/
def findLeaf : Nat → Heap → Nat → Nat
  | 0, _, a => a
  | fuel + 1, h, a =>
    match (lookupH h a).bind Node.m_child with
    | none => a
    | some c => findLeaf fuel h c

/-- The inner `while (action && result == ANSWER_UNDEFINED)` loop of
`Behavior::ShouldHurry`: work up the suspend stack along `m_buriedUnderMe`,
invoking the query handler, keeping the first defined answer. -/
def hurryInner : Nat → (Nat → QueryResultType) → Heap → Option Nat → QueryResultType
  | 0, _, _, _ => ANSWER_UNDEFINED
  | _ + 1, _, _, none => ANSWER_UNDEFINED
  | fuel + 1, q, h, some a =>
    let r := q a
    if r ≠ ANSWER_UNDEFINED then r
    else hurryInner fuel q h ((lookupH h a).bind Node.m_buriedUnderMe)

/-- The outer `while (action && result == ANSWER_UNDEFINED)` loop of
`Behavior::ShouldHurry`: scan the suspend stack from the current action, then
ascend to its containing action and repeat. -/
def hurryOuter : Nat → (Nat → QueryResultType) → Heap → Option Nat → QueryResultType
  | 0, _, _, _ => ANSWER_UNDEFINED
  | _ + 1, _, _, none => ANSWER_UNDEFINED
  | fuel + 1, q, h, some a =>
    let containingAction := (lookupH h a).bind Node.m_parent
    let r := hurryInner (fuel + 1) q h (some a)
    if r ≠ ANSWER_UNDEFINED then r
    else hurryOuter fuel q h containingAction

/-- `Behavior::ShouldHurry(me)` (representative of all the contextual-query
methods of `Behavior`, which share this exact traversal): answer `ANSWER_UNDEFINED`
when empty, else find the innermost child of the top action and run the nested
scan loops.  `q` is the per-node virtual query handler. -/
def ShouldHurry (fuel : Nat) (q : Nat → QueryResultType) (h : Heap) (m_action : Option Nat) :
    QueryResultType :=
  match m_action with
  | none => ANSWER_UNDEFINED
  | some a0 => hurryOuter fuel q h (some (findLeaf fuel h a0))

/-- The node visit order stated by the specification for queries (§4.6): the
current node, then along its `buried_under` chain. -/
def specBuriedChain : Nat → Heap → Option Nat → List Nat
  | 0, _, _ => []
  | _ + 1, _, none => []
  | fuel + 1, h, some a => a :: specBuriedChain fuel h ((lookupH h a).bind Node.m_buriedUnderMe)

/-- The full traversal order stated by the specification for queries (§4.6):
scan the local suspend stack, then ascend to the parent and repeat the whole scan. -/
def specTraversal : Nat → Heap → Option Nat → List Nat
  | 0, _, _ => []
  | _ + 1, _, none => []
  | fuel + 1, h, some a =>
    specBuriedChain (fuel + 1) h (some a) ++ specTraversal fuel h ((lookupH h a).bind Node.m_parent)

/-- The first defined (non-sentinel) answer along a list of nodes, or the
sentinel if none defines one — the specification's aggregation rule. -/
def firstDefinedAnswer (q : Nat → QueryResultType) : List Nat → QueryResultType
  | [] => ANSWER_UNDEFINED
  | a :: rest =>
    let r := q a
    if r ≠ ANSWER_UNDEFINED then r else firstDefinedAnswer q rest

/-! ## A driving harness for whole transition sequences

To reason about arbitrary sequences of transitions, we drive the embedded machine
from a behavior whose actions all use the base-class default hooks, feeding it a
list of transition commands: each command is the `ActionResult` that the current
top-of-stack action produces next (built through the `Action` result constructors,
allocating a fresh constructed action for `ChangeTo` and `SuspendFor`), applied by
the machine's own `Action::ApplyResult`. -/

/-- Per-step fuel for the driver: far more than the call depth any single
transition of the driver needs. -/
def FUEL : Nat := 64

/-- A transition command: which result the current top action produces next. -/
inductive Cmd where
  | cmdContinue
  | cmdChangeTo
  | cmdSuspendFor
  | cmdDone
deriving DecidableEq

/-- Driver state: the heap, the behavior's current top action (`Behavior::m_action`),
a fresh-id counter, the accumulated trace, and whether the machine ever got stuck. -/
structure DrvState where
  heap : Heap
  top : Option Nat
  cnt : Nat
  tr : Trace
  stuck : Bool
deriving DecidableEq

/-- Apply a result to the current top action via `Action::ApplyResult` and store
the returned action as the behavior's new top. -/
def runApply (s : DrvState) (t : Nat) (r : ActionResult) (h : Heap) : DrvState :=
  match ApplyResult FUEL defaultHooks h t r with
  | (h2, tr2, none) => { s with heap := h2, tr := s.tr ++ tr2, stuck := true }
  | (h2, tr2, some newTop) => { s with heap := h2, top := newTop, tr := s.tr ++ tr2 }

/-- Execute one transition command on the driver state. -/
def stepCmd (s : DrvState) (c : Cmd) : DrvState :=
  match s.top with
  | none => s
  | some t =>
    match c with
    | .cmdContinue => runApply s t Continue s.heap
    | .cmdChangeTo =>
      let h := (s.cnt, Node.init []) :: s.heap
      runApply { s with cnt := s.cnt + 1 } t (ChangeTo (some s.cnt) none) h
    | .cmdSuspendFor =>
      let h := (s.cnt, Node.init []) :: s.heap
      match SuspendFor h t (some s.cnt) none with
      | (h2, r) => runApply { s with cnt := s.cnt + 1 } t r h2
    | .cmdDone => runApply s t (Done none) s.heap

/-- The initial driver state: one freshly constructed action, started through the
engine's own start path (`ChangeTo` of the action itself, the result produced by
`Action::InvokeUpdate` for a not-yet-started action). -/
def initState : DrvState :=
  runApply ⟨[(0, Node.init [])], some 0, 1, [], false⟩ 0
    (ChangeTo (some 0) (some ("Starting Action"))) [(0, Node.init [])]

/-- Run a whole command sequence from the initial driver state. -/
def runCmds (cs : List Cmd) : DrvState := cs.foldl stepCmd initState

/-- A "detached" node: a freshly constructed action that has not been wired into
any stack (all pointers null, pending slot holding no action).  Actions carried by
event proposals are in this state. -/
def Detached (n : Node) : Prop :=
  n.m_parent = none ∧ n.m_child = none ∧ n.m_buriedUnderMe = none ∧
  n.m_coveringMe = none ∧ n.m_eventResult.m_action = none

instance decDetached (n : Node) : Decidable (Detached n) := by
  unfold Detached
  infer_instance

/-- Natural notion of C-string equality limited to the first `n` characters,
used to phrase what "the names differ within the first 32 characters" means. -/
def strEqN : List Nat → List Nat → Nat → Bool
  | _, _, 0 => true
  | s1, s2, n + 1 =>
    let c1 := s1.headD 0
    let c2 := s2.headD 0
    if c1 = c2 then (if c1 = 0 then true else strEqN s1.tail s2.tail n) else false

/-! ### The canonical shape of driver heaps

Every state the driver reaches is a plain suspend stack: a list of
actions (top first), each started, all but the top suspended, each burying the
next, with no parents, children or pending events.  The covering back-links of
buried actions are not constrained (the engine both sets and clears them but, on
such stacks, never reads them except on the top action, where the link is null). -/

/-- A driver stack node with the given buried link, covering link and suspended flag. -/
def stackNode (buried covering : Option Nat) (suspended : Bool) : Node :=
  { name := []
    m_parent := none
    m_child := none
    m_buriedUnderMe := buried
    m_coveringMe := covering
    m_isStarted := true
    m_isSuspended := suspended
    m_eventResult := TryContinue RESULT_NONE }

/-- The buried part of a canonical driver heap: the actions of `l` (top first),
each suspended, burying the next; `flags` says which of them still carry a
covering back-link to the action above. -/
def buildHeapTail (above : Nat) : List Nat → List Bool → Heap
  | [], _ => []
  | x :: rest, flags =>
    (x, stackNode rest.head? (if flags.headD false then some above else none) true) ::
      buildHeapTail x rest flags.tail

/-- A whole canonical driver heap for the stack `l` (top first). -/
def buildHeapTop : List Nat → List Bool → Heap
  | [], _ => []
  | x :: rest, flags => (x, stackNode rest.head? none false) :: buildHeapTail x rest flags

/-- Well-formed stack ids: strictly decreasing top-first (hence all distinct),
all below the allocation counter. -/
def stackOK (stack : List Nat) (cnt : Nat) : Prop :=
  stack.Pairwise (fun a b => b < a) ∧ ∀ i ∈ stack, i < cnt

/-- The driver state holds exactly the canonical heap for `stack`. -/
def heapRepr (s : DrvState) (stack : List Nat) (flags : List Bool) : Prop :=
  s.heap = buildHeapTop stack flags ∧ s.top = stack.head? ∧ stackOK stack s.cnt ∧ s.stuck = false

/-- The lifecycle events of a single node, in order: start, end, destruction. -/
inductive LifeEv where
  | LS
  | LE
  | LD
deriving DecidableEq

export LifeEv (LS LE LD)

/-- Project a trace event onto node `n`'s lifecycle. -/
def lifeOf (n : Nat) : Ev → Option LifeEv
  | .evOnStart w _ => if w = n then some LS else none
  | .evOnEnd w _ => if w = n then some LE else none
  | .evDestroy w => if w = n then some LD else none
  | _ => none

/-- The lifecycle history of node `n` along a trace. -/
def lifeTrace (n : Nat) (tr : Trace) : List LifeEv := tr.filterMap (lifeOf n)

/-- One step of the stack-discipline check: a start call pushes its node,
an end call must match the most recently started live node and pops it;
any mismatch is a failure (`none`). -/
def lifoStep : Option (List Nat) → Ev → Option (List Nat)
  | none, _ => none
  | some st, .evOnStart w _ => some (w :: st)
  | some st, .evOnEnd w _ =>
    match st with
    | [] => none
    | x :: r => if x = w then some r else none
  | some st, _ => some st

/-- Fold the stack-discipline check over a whole trace: succeeds exactly when
every end call ends the most recently started not-yet-ended node, and returns
the list of started, not-yet-ended nodes (most recent first). -/
def lifoFold (tr : Trace) : Option (List Nat) := tr.foldl lifoStep (some [])

/-- The trace bookkeeping invariant of driver runs: live nodes have exactly a
start; every other allocated node has exactly start, end, destruction, in that
order; unallocated ids are unmentioned. -/
def lifeInv (tr : Trace) (stack : List Nat) (cnt : Nat) : Prop :=
  ∀ n, (n ∈ stack → lifeTrace n tr = [LS]) ∧
    (n < cnt → n ∉ stack → lifeTrace n tr = [LS, LE, LD]) ∧
    (cnt ≤ n → lifeTrace n tr = [])

/-- The full driver invariant. -/
def Inv (s : DrvState) : Prop :=
  ∃ stack flags, heapRepr s stack flags ∧ lifoFold s.tr = some stack ∧ lifeInv s.tr stack s.cnt

/-- The `who` of an `OnEnd` hook invocation, for reading end order off a trace. -/
def evEndWho : Ev → Option Nat
  | .evOnEnd w _ => some w
  | _ => none

/-- The `who` of an `OnStart` hook invocation, for reading start order off a trace. -/
def evStartWho : Ev → Option Nat
  | .evOnStart w _ => some w
  | _ => none

/-! ### Concrete fixtures used by witnesses and counterexamples -/

/-- A single started, otherwise fresh action. -/
def fixOne : Heap := [(0, { Node.init [] with m_isStarted := true })]

/-- A node holding a pending `CHANGE_TO` proposal of `RESULT_CRITICAL` priority. -/
def fixCritNode : Node :=
  { Node.init [] with
    m_isStarted := true
    m_eventResult := ⟨CHANGE_TO, none, RESULT_CRITICAL, none⟩ }

/-- Heap for the Critical-versus-Critical merge counterexample. -/
def fixCrit : Heap := [(0, fixCritNode)]

/-- A two-action stack where the buried action (id 0) holds a pending
`CHANGE_TO`, putting the covering action (id 1) out of scope. -/
def fixOOS : Heap :=
  [(1, { Node.init [] with m_isStarted := true, m_buriedUnderMe := some 0 }),
   (0, { Node.init [] with
          m_isStarted := true
          m_isSuspended := true
          m_coveringMe := some 1
          m_eventResult := ⟨CHANGE_TO, some 5, RESULT_TRY, none⟩ })]

/-- The query-scan fixture: action A (id 2) with active leaf child L (id 3),
burying B (id 1). -/
def fixQuery : Heap :=
  [(2, { Node.init [] with m_isStarted := true, m_child := some 3, m_buriedUnderMe := some 1 }),
   (3, { Node.init [] with m_isStarted := true, m_parent := some 2 }),
   (1, { Node.init [] with m_isStarted := true, m_isSuspended := true, m_coveringMe := some 2 })]

/-- The query handlers for the scan fixture: only B (id 1) has an opinion. -/
def fixQueryQ : Nat → QueryResultType := fun n => if n = 1 then ANSWER_YES else ANSWER_UNDEFINED

/-- A node whose pending slot holds a `SUSTAIN` of priority `RESULT_TRY`
referencing the detached action 5. -/
def fixStoreNode : Node :=
  { Node.init [] with
    m_isStarted := true
    m_eventResult := ⟨SUSTAIN, some 5, RESULT_TRY, none⟩ }

/-- Heap for the priority-merge witness: node 0 with the `SUSTAIN` slot above and
the detached action 5 it references. -/
def fixStoreHeap : Heap := [(0, fixStoreNode), (5, Node.init [])]

/-- An `IMPORTANT`-priority `CHANGE_TO` proposal carrying no action. -/
def fixProposal : EventDesiredResult := ⟨CHANGE_TO, none, RESULT_IMPORTANT, none⟩

/-- A node whose pending slot holds a Critical `SUSTAIN`. -/
def fixCritSustainNode : Node :=
  { Node.init [] with
    m_isStarted := true
    m_eventResult := ⟨SUSTAIN, none, RESULT_CRITICAL, none⟩ }

/-- Heap for the Critical-over-Critical-Sustain witness. -/
def fixCritSustain : Heap := [(0, fixCritSustainNode)]

/-- Hooks where action 0 supplies an initial contained action (action 1), as a
concrete derived action overriding `InitialContainedAction` does; everything
else is the base-class default. -/
def hooksC4 : Hooks :=
  { defaultHooks with initialContainedAction := fun n => if n = 0 then some 1 else none }

/-- The trace of starting action 0 — whose `InitialContainedAction` yields
action 1 — through the engine's own start path, then finishing it with `Done`:
`InvokeOnStart` starts the child before the parent's `OnStart` runs (line
"m_child = InitialContainedAction(me)" precedes "OnStart(me, priorAction)"),
and `InvokeOnEnd` cascades into children first. -/
def childRun : Trace :=
  match ApplyResult 16 hooksC4 [(0, Node.init []), (1, Node.init [])] 0 (ChangeTo (some 0) none) with
  | (h1, t1, _) =>
    match ApplyResult 16 hooksC4 h1 0 (Done none) with
    | (_, t2, _) => t1 ++ t2

/-! ## Helper lemmas about the heap representation -/

@[simp]
theorem lookupH_nil (i : Nat) : lookupH [] i = none := rfl

@[simp]
theorem lookupH_cons_self (k : Nat) (n : Node) (h : Heap) : lookupH ((k, n) :: h) k = some n := by
  simp [lookupH]

theorem lookupH_cons_ne (k i : Nat) (n : Node) (h : Heap) (hne : k ≠ i) :
    lookupH ((k, n) :: h) i = lookupH h i := by
  simp [lookupH, hne]

@[simp]
theorem modifyH_nil (i : Nat) (f : Node → Node) : modifyH [] i f = [] := rfl

@[simp]
theorem modifyH_cons_self (k : Nat) (n : Node) (h : Heap) (f : Node → Node) :
    modifyH ((k, n) :: h) k f = (k, f n) :: h := by
  simp [modifyH]

theorem modifyH_cons_ne (k i : Nat) (n : Node) (h : Heap) (f : Node → Node) (hne : k ≠ i) :
    modifyH ((k, n) :: h) i f = (k, n) :: modifyH h i f := by
  simp [modifyH, hne]

@[simp]
theorem removeH_nil (i : Nat) : removeH [] i = [] := rfl

@[simp]
theorem removeH_cons_self (k : Nat) (n : Node) (h : Heap) : removeH ((k, n) :: h) k = removeH h k := by
  simp [removeH]

theorem removeH_cons_ne (k i : Nat) (n : Node) (h : Heap) (hne : k ≠ i) :
    removeH ((k, n) :: h) i = (k, n) :: removeH h i := by
  simp [removeH, hne]

theorem lookupH_eq_none_of_not_mem (h : Heap) (i : Nat) (hm : i ∉ keysH h) : lookupH h i = none := by
  induction h with
  | nil => rfl
  | cons p rest ih =>
    simp only [keysH, List.map_cons, List.mem_cons, not_or] at hm
    obtain ⟨h1, h2⟩ := hm
    obtain ⟨k, n⟩ := p
    rw [lookupH_cons_ne k i n rest (by simpa using Ne.symm h1)]
    exact ih (by simpa [keysH] using h2)

theorem removeH_eq_self_of_not_mem (h : Heap) (i : Nat) (hm : i ∉ keysH h) : removeH h i = h := by
  induction h with
  | nil => rfl
  | cons p rest ih =>
    simp only [keysH, List.map_cons, List.mem_cons, not_or] at hm
    obtain ⟨h1, h2⟩ := hm
    obtain ⟨k, n⟩ := p
    rw [removeH_cons_ne k i n rest (by simpa using Ne.symm h1)]
    rw [ih (by simpa [keysH] using h2)]

theorem modifyH_eq_self_of_not_mem (h : Heap) (i : Nat) (f : Node → Node) (hm : i ∉ keysH h) :
    modifyH h i f = h := by
  induction h with
  | nil => rfl
  | cons p rest ih =>
    simp only [keysH, List.map_cons, List.mem_cons, not_or] at hm
    obtain ⟨h1, h2⟩ := hm
    obtain ⟨k, n⟩ := p
    rw [modifyH_cons_ne k i n rest f (by simpa using Ne.symm h1)]
    rw [ih (by simpa [keysH] using h2)]

theorem keysH_buildHeapTail (l : List Nat) : ∀ (a : Nat) (f : List Bool),
    keysH (buildHeapTail a l f) = l := by
  induction l with
  | nil => intro a f; rfl
  | cons x rest ih => intro a f; simp [buildHeapTail, keysH] at ih ⊢; exact ih x f.tail

theorem keysH_buildHeapTop (l : List Nat) (f : List Bool) : keysH (buildHeapTop l f) = l := by
  cases l with
  | nil => rfl
  | cons x rest => simp [buildHeapTop, keysH]; simpa [keysH] using keysH_buildHeapTail rest x f

/-! ## Helper lemmas for the claims -/

theorem strncmp_eq_zero_iff (n : Nat) : ∀ (s1 s2 : List Nat),
    strncmp s1 s2 n = 0 ↔ strEqN s1 s2 n = true := by
  induction n with
  | zero => intro s1 s2; simp [strncmp, strEqN]
  | succ n ih =>
    intro s1 s2
    have e1 : strncmp s1 s2 (n + 1) =
        if s1.headD 0 ≠ s2.headD 0 then ((s1.headD 0 : Int)) - ((s2.headD 0 : Int))
        else if s1.headD 0 = 0 then 0 else strncmp s1.tail s2.tail n := rfl
    have e2 : strEqN s1 s2 (n + 1) =
        (if s1.headD 0 = s2.headD 0 then
          (if s1.headD 0 = 0 then true else strEqN s1.tail s2.tail n)
        else false) := rfl
    rw [e1, e2]
    by_cases hc : s1.headD 0 = s2.headD 0
    · rw [if_neg (not_not_intro hc), if_pos hc]
      by_cases h0 : s1.headD 0 = 0
      · rw [if_pos h0, if_pos h0]
        simp
      · rw [if_neg h0, if_neg h0]
        exact ih s1.tail s2.tail
    · rw [if_pos hc, if_neg hc]
      constructor
      · intro habs
        exfalso
        apply hc
        have hz : ((s1.headD 0 : Int)) = ((s2.headD 0 : Int)) := by omega
        exact_mod_cast hz
      · intro habs
        cases habs

/-- Claim C10: `Action::IsNamed` converts the raw `strncmp` result to `bool`, so it
returns `true` exactly when the action's name differs from the given name within
the first 32 characters — the opposite of reporting a match.  The conjuncts also
exhibit this on concrete names ("Foo" versus "Foo" and "Foo" versus "Bar"). -/
theorem claim_C10 :
    (∀ (self : Node) (name : List Nat),
      (IsNamed self name = true ↔ strEqN self.name name 32 = false)) ∧
    IsNamed (Node.init [70, 111, 111]) [70, 111, 111] = false ∧
    IsNamed (Node.init [70, 111, 111]) [66, 97, 114] = true := by
  refine ⟨?_, by decide, by decide⟩
  intro self name
  unfold IsNamed
  rw [show (32 : Nat) = 32 from rfl]
  constructor
  · intro hne
    simp only [decide_eq_true_eq] at hne
    cases hEq : strEqN self.name name 32
    · rfl
    · exact absurd ((strncmp_eq_zero_iff 32 self.name name).mpr hEq) hne
  · intro hne
    simp only [decide_eq_true_eq]
    intro h0
    rw [(strncmp_eq_zero_iff 32 self.name name).mp h0] at hne
    cases hne

/-- Claim C9: delivering a named event to an action whose `m_isStarted` flag is
false is a complete no-op: the `PROCESS_EVENT` macro returns before invoking any
handler (so no handler runs on it or on anything buried under it), before writing
any pending slot (the heap is unchanged), and before the base-class call that
forwards the event to contained responders (the trace is empty). -/
theorem claim_C9 (fuel : Nat) (hooks : Hooks) (h : Heap) (this : Nat) (a : Node)
    (hl : lookupH h this = some a) (hns : a.m_isStarted = false) :
    PROCESS_EVENT (fuel + 1) hooks h this = (h, [], some ()) := by
  unfold PROCESS_EVENT
  rw [hl]
  simp [hns]

/-- Witness for C9 at a concrete unstarted action. -/
theorem claim_C9_witness :
    lookupH [(0, Node.init [])] 0 = some (Node.init []) ∧
    (Node.init []).m_isStarted = false ∧
    PROCESS_EVENT 5 defaultHooks [(0, Node.init [])] 0 = ([(0, Node.init [])], [], some ()) :=
  ⟨by decide, by decide, claim_C9 4 defaultHooks [(0, Node.init [])] 0 (Node.init []) (by decide) (by decide)⟩

theorem outOfScopeLoop_of_mem (fuel : Nat) : ∀ (h : Heap) (o : Option Nat) (n : Nat) (un : Node),
    n ∈ buriedList fuel h o → lookupH h n = some un →
    (un.m_eventResult.m_type = CHANGE_TO ∨ un.m_eventResult.m_type = DONE) →
    outOfScopeLoop fuel h o = true := by
  induction fuel with
  | zero => intro h o n un hm; simp [buriedList] at hm
  | succ fuel ih =>
    intro h o n un hm hl hty
    cases o with
    | none => simp [buriedList] at hm
    | some u =>
      simp only [buriedList] at hm
      cases hu : lookupH h u with
      | none => rw [hu] at hm; simp at hm
      | some uu =>
        rw [hu] at hm
        simp only [List.mem_cons] at hm
        unfold outOfScopeLoop
        rw [hu]
        by_cases hb : uu.m_eventResult.m_type = CHANGE_TO ∨ uu.m_eventResult.m_type = DONE
        · simp [hb]
        · simp only [if_neg hb]
          cases hm with
          | inl heq =>
            subst heq
            rw [hu] at hl
            cases hl
            exact absurd hty hb
          | inr hmem => exact ih h uu.m_buriedUnderMe n un hmem hl hty

/-- Claim C3: if any node buried under a started node holds a pending event of
kind `CHANGE_TO` or `DONE`, that node's next `InvokeUpdate` immediately yields
`Done("Out of scope")`: the heap is untouched (its own pending slot is not
consumed), no hook runs (the trace is empty, so it neither recurses into its
child nor runs its own `Update` body). -/
theorem claim_C3 (fuel : Nat) (hooks : Hooks) (h : Heap) (this : Nat) (a : Node)
    (n : Nat) (un : Node)
    (hl : lookupH h this = some a) (_hst : a.m_isStarted = true)
    (hmem : n ∈ buriedList fuel h a.m_buriedUnderMe)
    (hln : lookupH h n = some un)
    (hty : un.m_eventResult.m_type = CHANGE_TO ∨ un.m_eventResult.m_type = DONE) :
    InvokeUpdate (fuel + 1) hooks h this = (h, [], some (Done (some ("Out of scope")))):= by
  unfold InvokeUpdate
  rw [hl]
  have hoos := outOfScopeLoop_of_mem fuel h a.m_buriedUnderMe n un hmem hln hty
  simp [hoos]

/-- Witness for C3 on the two-action fixture: action 1 covers action 0, which
holds a pending `CHANGE_TO`. -/
theorem claim_C3_witness :
    InvokeUpdate 8 defaultHooks fixOOS 1 = (fixOOS, [], some (Done (some ("Out of scope")))) := by
  have h0 : lookupH fixOOS 1 =
      some { Node.init [] with m_isStarted := true, m_buriedUnderMe := some 0 } := by decide
  exact claim_C3 7 defaultHooks fixOOS 1
    { Node.init [] with m_isStarted := true, m_buriedUnderMe := some 0 }
    0
    { Node.init [] with
      m_isStarted := true
      m_isSuspended := true
      m_coveringMe := some 1
      m_eventResult := ⟨CHANGE_TO, some 5, RESULT_TRY, none⟩ }
    h0 (by decide) (by decide) (by decide) (by decide)

theorem priGt_ne_none (p q : EventResultPriorityType) (hgt : priGt p q = true) : p ≠ RESULT_NONE := by
  cases p <;> simp_all [priGt, EventResultPriorityType.toNat]

theorem priGt_irrefl_of_eq (p q : EventResultPriorityType) (heq : p = q) : priGt p q = false := by
  subst heq
  simp [priGt]

@[simp]
theorem priGt_self (p : EventResultPriorityType) : priGt p p = false := by
  simp [priGt]

/-- Deleting a detached action just removes it from the heap. -/
theorem destroy_detached (fuel : Nat) (h : Heap) (x : Nat) (n : Node)
    (hl : lookupH h x = some n) (hd : Detached n) :
    destroyAction (fuel + 2) h x = (removeH h x, [Ev.evDestroy x], some ()) := by
  obtain ⟨hp, hc, hb, hcov, hsl⟩ := hd
  show destroyAction (fuel + 1 + 1) h x = _
  simp only [destroyAction, hl]
  simp [hp, hc, hb, hcov, hsl, destroyChain, mbind, hl]

theorem store_continue (fuel : Nat) (h : Heap) (this : Nat) (a : Node)
    (result : EventDesiredResult) (hl : lookupH h this = some a)
    (hc : result.IsContinue = true) :
    StorePendingEventResultM (fuel + 3) h this result = (h, [], some ()) := by
  show StorePendingEventResultM (fuel + 2 + 1) h this result = _
  simp only [StorePendingEventResultM, hl]
  simp [hc]

theorem store_higher_none (fuel : Nat) (h : Heap) (this : Nat) (a : Node)
    (result : EventDesiredResult) (hl : lookupH h this = some a)
    (hnc : result.IsContinue = false)
    (hgt : priGt result.m_priority a.m_eventResult.m_priority = true)
    (hact : a.m_eventResult.m_action = none) :
    StorePendingEventResultM (fuel + 3) h this result =
      (modifyH h this (fun nn => { nn with m_eventResult := result }), [], some ()) := by
  show StorePendingEventResultM (fuel + 2 + 1) h this result = _
  simp only [StorePendingEventResultM, hl]
  have hn := priGt_ne_none result.m_priority a.m_eventResult.m_priority hgt
  simp [hnc, hgt, hn, hact, mbind]

theorem store_higher_some (fuel : Nat) (h : Heap) (this : Nat) (a : Node)
    (result : EventDesiredResult) (old : Nat) (oldN : Node)
    (hl : lookupH h this = some a)
    (hnc : result.IsContinue = false)
    (hgt : priGt result.m_priority a.m_eventResult.m_priority = true)
    (hact : a.m_eventResult.m_action = some old)
    (hlo : lookupH h old = some oldN) (hdet : Detached oldN) :
    StorePendingEventResultM (fuel + 3) h this result =
      (modifyH (removeH h old) this (fun nn => { nn with m_eventResult := result }),
       [Ev.evDestroy old], some ()) := by
  show StorePendingEventResultM (fuel + 2 + 1) h this result = _
  simp only [StorePendingEventResultM, hl]
  have hn := priGt_ne_none result.m_priority a.m_eventResult.m_priority hgt
  simp [hnc, hgt, hn, hact, mbind, destroy_detached fuel h old oldN hlo hdet]

theorem store_sustain_none (fuel : Nat) (h : Heap) (this : Nat) (a : Node)
    (result : EventDesiredResult) (hl : lookupH h this = some a)
    (hnc : result.IsContinue = false)
    (heq : result.m_priority = a.m_eventResult.m_priority)
    (hsus : a.m_eventResult.m_type = SUSTAIN)
    (hact : a.m_eventResult.m_action = none) :
    StorePendingEventResultM (fuel + 3) h this result =
      (modifyH h this (fun nn => { nn with m_eventResult := result }), [], some ()) := by
  show StorePendingEventResultM (fuel + 2 + 1) h this result = _
  simp only [StorePendingEventResultM, hl]
  simp [hnc, priGt_irrefl_of_eq result.m_priority a.m_eventResult.m_priority heq,
    heq, hsus, hact, mbind]

theorem store_sustain_some (fuel : Nat) (h : Heap) (this : Nat) (a : Node)
    (result : EventDesiredResult) (old : Nat) (oldN : Node)
    (hl : lookupH h this = some a)
    (hnc : result.IsContinue = false)
    (heq : result.m_priority = a.m_eventResult.m_priority)
    (hsus : a.m_eventResult.m_type = SUSTAIN)
    (hact : a.m_eventResult.m_action = some old)
    (hlo : lookupH h old = some oldN) (hdet : Detached oldN) :
    StorePendingEventResultM (fuel + 3) h this result =
      (modifyH (removeH h old) this (fun nn => { nn with m_eventResult := result }),
       [Ev.evDestroy old], some ()) := by
  show StorePendingEventResultM (fuel + 2 + 1) h this result = _
  simp only [StorePendingEventResultM, hl]
  simp [hnc, priGt_irrefl_of_eq result.m_priority a.m_eventResult.m_priority heq,
    heq, hsus, hact, mbind, destroy_detached fuel h old oldN hlo hdet]

theorem store_reject_none (fuel : Nat) (h : Heap) (this : Nat) (a : Node)
    (result : EventDesiredResult) (hl : lookupH h this = some a)
    (hnc : result.IsContinue = false)
    (hngt : priGt result.m_priority a.m_eventResult.m_priority = false)
    (hnsus : ¬(result.m_priority = a.m_eventResult.m_priority ∧ a.m_eventResult.m_type = SUSTAIN))
    (hact : result.m_action = none) :
    StorePendingEventResultM (fuel + 3) h this result = (h, [], some ()) := by
  show StorePendingEventResultM (fuel + 2 + 1) h this result = _
  simp only [StorePendingEventResultM, hl]
  simp [hnc, hngt, hnsus, hact]

theorem store_reject_some (fuel : Nat) (h : Heap) (this : Nat) (a : Node)
    (result : EventDesiredResult) (x : Nat) (xN : Node) (hl : lookupH h this = some a)
    (hnc : result.IsContinue = false)
    (hngt : priGt result.m_priority a.m_eventResult.m_priority = false)
    (hnsus : ¬(result.m_priority = a.m_eventResult.m_priority ∧ a.m_eventResult.m_type = SUSTAIN))
    (hact : result.m_action = some x)
    (hlx : lookupH h x = some xN) (hdet : Detached xN) :
    StorePendingEventResultM (fuel + 3) h this result =
      (removeH h x, [Ev.evDestroy x], some ()) := by
  show StorePendingEventResultM (fuel + 2 + 1) h this result = _
  simp only [StorePendingEventResultM, hl]
  simp [hnc, hngt, hnsus, hact, destroy_detached fuel h x xN hlx hdet]

/-- Claim C2: the priority-merge rule of `Action::StorePendingEventResult`, for a
node holding slot content `S` (`a.m_eventResult`) and an arriving proposal `R`
(`result`): a `Continue` proposal is dropped without comparison; a
strictly-higher-priority proposal replaces `S` and destroys the action `S`
referenced, if any — the `R.priority ≠ None` guard of that destruction being
automatically true for a strictly-higher priority; an equal-priority proposal
over a `SUSTAIN` slot replaces it, destroying `S`'s action if present; any other
proposal is rejected, the slot is untouched, and the action `R` carried, if any,
is destroyed immediately.  (Actions referenced by proposals are freshly
constructed, hence detached.) -/
theorem claim_C2 (fuel : Nat) (h : Heap) (this : Nat) (a : Node)
    (result : EventDesiredResult) (hl : lookupH h this = some a) :
    (result.IsContinue = true →
      StorePendingEventResultM (fuel + 3) h this result = (h, [], some ())) ∧
    (priGt result.m_priority a.m_eventResult.m_priority = true →
      result.m_priority ≠ RESULT_NONE) ∧
    (result.IsContinue = false →
      priGt result.m_priority a.m_eventResult.m_priority = true →
      a.m_eventResult.m_action = none →
      StorePendingEventResultM (fuel + 3) h this result =
        (modifyH h this (fun nn => { nn with m_eventResult := result }), [], some ())) ∧
    (∀ old oldN, result.IsContinue = false →
      priGt result.m_priority a.m_eventResult.m_priority = true →
      a.m_eventResult.m_action = some old → lookupH h old = some oldN → Detached oldN →
      StorePendingEventResultM (fuel + 3) h this result =
        (modifyH (removeH h old) this (fun nn => { nn with m_eventResult := result }),
         [Ev.evDestroy old], some ())) ∧
    (result.IsContinue = false →
      result.m_priority = a.m_eventResult.m_priority → a.m_eventResult.m_type = SUSTAIN →
      a.m_eventResult.m_action = none →
      StorePendingEventResultM (fuel + 3) h this result =
        (modifyH h this (fun nn => { nn with m_eventResult := result }), [], some ())) ∧
    (∀ old oldN, result.IsContinue = false →
      result.m_priority = a.m_eventResult.m_priority → a.m_eventResult.m_type = SUSTAIN →
      a.m_eventResult.m_action = some old → lookupH h old = some oldN → Detached oldN →
      StorePendingEventResultM (fuel + 3) h this result =
        (modifyH (removeH h old) this (fun nn => { nn with m_eventResult := result }),
         [Ev.evDestroy old], some ())) ∧
    (result.IsContinue = false →
      priGt result.m_priority a.m_eventResult.m_priority = false →
      ¬(result.m_priority = a.m_eventResult.m_priority ∧ a.m_eventResult.m_type = SUSTAIN) →
      (result.m_action = none →
        StorePendingEventResultM (fuel + 3) h this result = (h, [], some ())) ∧
      (∀ x xN, result.m_action = some x → lookupH h x = some xN → Detached xN →
        StorePendingEventResultM (fuel + 3) h this result =
          (removeH h x, [Ev.evDestroy x], some ()))) := by
  refine ⟨?_, ?_, ?_, ?_, ?_, ?_, ?_⟩
  · exact fun hc => store_continue fuel h this a result hl hc
  · exact fun hgt => priGt_ne_none _ _ hgt
  · exact fun hnc hgt hact => store_higher_none fuel h this a result hl hnc hgt hact
  · exact fun old oldN hnc hgt hact hlo hdet =>
      store_higher_some fuel h this a result old oldN hl hnc hgt hact hlo hdet
  · exact fun hnc heq hsus hact => store_sustain_none fuel h this a result hl hnc heq hsus hact
  · exact fun old oldN hnc heq hsus hact hlo hdet =>
      store_sustain_some fuel h this a result old oldN hl hnc heq hsus hact hlo hdet
  · intro hnc hngt hnsus
    exact ⟨fun hact => store_reject_none fuel h this a result hl hnc hngt hnsus hact,
      fun x xN hact hlx hdet => store_reject_some fuel h this a result x xN hl hnc hngt hnsus hact hlx hdet⟩

/-- Witness for C2: an `IMPORTANT` `CHANGE_TO` proposal beats a `TRY` `SUSTAIN`
slot referencing detached action 5, which is destroyed. -/
theorem claim_C2_witness :
    StorePendingEventResultM 7 fixStoreHeap 0 fixProposal =
      (modifyH (removeH fixStoreHeap 5) 0 (fun nn => { nn with m_eventResult := fixProposal }),
       [Ev.evDestroy 5], some ()) :=
  (claim_C2 4 fixStoreHeap 0 fixStoreNode fixProposal (by decide)).2.2.2.1
    5 (Node.init []) (by decide) (by decide) (by decide) (by decide) (by decide)

/-- Counterexample to claim C7 as stated: a `RESULT_CRITICAL` proposal arriving
while the pending slot already holds a `RESULT_CRITICAL` proposal whose kind is
`CHANGE_TO` (not `SUSTAIN`) is rejected, leaving the slot unchanged — so a
Critical proposal does not replace slot content of every kind and priority. -/
theorem claim_C7_counterexample :
    StorePendingEventResultM 7 fixCrit 0 ⟨DONE, none, RESULT_CRITICAL, none⟩ =
      (fixCrit, [], some ()) ∧
    (lookupH fixCrit 0).map (fun nn => nn.m_eventResult) =
      some ⟨CHANGE_TO, none, RESULT_CRITICAL, none⟩ ∧
    (⟨CHANGE_TO, none, RESULT_CRITICAL, none⟩ : EventDesiredResult) ≠
      ⟨DONE, none, RESULT_CRITICAL, none⟩ := by
  refine ⟨?_, by decide, by decide⟩
  exact store_reject_none 4 fixCrit 0 fixCritNode ⟨DONE, none, RESULT_CRITICAL, none⟩
    (by decide) (by decide) (by decide) (by decide) (by decide)

/-- Claim C7, amended: a non-`Continue` proposal of `Critical` priority replaces
the pending slot content `S` whenever `S`'s priority is below `Critical`, or `S`
is itself a `Critical` `SUSTAIN`; the action `S` referenced, if any, is
destroyed.  (It is rejected only when `S` is already `Critical` with a kind
other than `SUSTAIN`; `Continue` proposals are dropped regardless of priority.) -/
theorem claim_C7 (fuel : Nat) (h : Heap) (this : Nat) (a : Node)
    (result : EventDesiredResult) (hl : lookupH h this = some a)
    (hcrit : result.m_priority = RESULT_CRITICAL)
    (hnc : result.IsContinue = false)
    (hslot : a.m_eventResult.m_priority ≠ RESULT_CRITICAL ∨
      (a.m_eventResult.m_priority = RESULT_CRITICAL ∧ a.m_eventResult.m_type = SUSTAIN)) :
    (a.m_eventResult.m_action = none →
      StorePendingEventResultM (fuel + 3) h this result =
        (modifyH h this (fun nn => { nn with m_eventResult := result }), [], some ())) ∧
    (∀ old oldN, a.m_eventResult.m_action = some old → lookupH h old = some oldN → Detached oldN →
      StorePendingEventResultM (fuel + 3) h this result =
        (modifyH (removeH h old) this (fun nn => { nn with m_eventResult := result }),
         [Ev.evDestroy old], some ())) := by
  cases hslot with
  | inl hne =>
    have hgt : priGt result.m_priority a.m_eventResult.m_priority = true := by
      rw [hcrit]
      cases hp : a.m_eventResult.m_priority <;>
        simp_all [priGt, EventResultPriorityType.toNat]
    exact ⟨fun hact => store_higher_none fuel h this a result hl hnc hgt hact,
      fun old oldN hact hlo hdet =>
        store_higher_some fuel h this a result old oldN hl hnc hgt hact hlo hdet⟩
  | inr hcs =>
    have heq : result.m_priority = a.m_eventResult.m_priority := by rw [hcrit, hcs.1]
    exact ⟨fun hact => store_sustain_none fuel h this a result hl hnc heq hcs.2 hact,
      fun old oldN hact hlo hdet =>
        store_sustain_some fuel h this a result old oldN hl hnc heq hcs.2 hact hlo hdet⟩

/-- Witness for the amended C7: a Critical `CHANGE_TO` proposal replaces a
Critical `SUSTAIN` slot. -/
theorem claim_C7_witness :
    StorePendingEventResultM 7 fixCritSustain 0 ⟨CHANGE_TO, none, RESULT_CRITICAL, none⟩ =
      (modifyH fixCritSustain 0
        (fun nn => { nn with m_eventResult := ⟨CHANGE_TO, none, RESULT_CRITICAL, none⟩ }),
       [], some ()) :=
  (claim_C7 4 fixCritSustain 0 fixCritSustainNode ⟨CHANGE_TO, none, RESULT_CRITICAL, none⟩
    (by decide) (by decide) (by decide) (Or.inr ⟨by decide, by decide⟩)).1 (by decide)

/-- Counterexample to claim C6 as stated: applying a `SUSPEND_FOR` result whose
action is null does not behave as `Continue` — the `OnSuspend` hook of the top
action is invoked (the trace is nonempty, and the action is marked suspended)
and the engine then dereferences the null interrupting action (a stuck state),
instead of leaving the stack unchanged with no hook invoked. -/
theorem claim_C6_counterexample :
    (ApplyResult 8 defaultHooks fixOne 0 ⟨SUSPEND_FOR, none, none⟩).2.1 =
      [Ev.evOnSuspend 0 none] ∧
    (ApplyResult 8 defaultHooks fixOne 0 ⟨SUSPEND_FOR, none, none⟩).2.2 = none ∧
    (ApplyResult 8 defaultHooks fixOne 0 ⟨SUSPEND_FOR, none, none⟩).1 ≠ fixOne := by
  refine ⟨by decide, by decide, by decide⟩

/-- Claim C6, amended: applying a `CHANGE_TO` result whose action is null behaves
as `Continue` — no hook is invoked, no node is created or destroyed, and the
stack is unchanged (the heap and trace are returned untouched and the node stays
in place).  Applying a `SUSPEND_FOR` result whose action is null does not: the
top action's `OnSuspend` hook runs, the action is marked suspended, and the
engine then dereferences the null action (modelled as the stuck outcome). -/
theorem claim_C6 :
    (∀ (fuel : Nat) (hooks : Hooks) (h : Heap) (this : Nat) (reason : Option String),
      ApplyResult (fuel + 1) hooks h this ⟨CHANGE_TO, none, reason⟩ = (h, [], some (some this))) ∧
    ApplyResult 8 defaultHooks fixOne 0 ⟨SUSPEND_FOR, none, none⟩ =
      ([(0, { Node.init [] with m_isStarted := true, m_isSuspended := true })],
       [Ev.evOnSuspend 0 none], none) := by
  constructor
  · intro fuel hooks h this reason
    rfl
  · decide

theorem firstDefinedAnswer_append (q : Nat → QueryResultType) (xs : List Nat) : ∀ ys : List Nat,
    firstDefinedAnswer q (xs ++ ys) =
      (if firstDefinedAnswer q xs ≠ ANSWER_UNDEFINED then firstDefinedAnswer q xs
       else firstDefinedAnswer q ys) := by
  induction xs with
  | nil => intro ys; simp [firstDefinedAnswer]
  | cons a xs ih =>
    intro ys
    simp only [List.cons_append, firstDefinedAnswer]
    by_cases hq : q a = ANSWER_UNDEFINED
    · simp [hq, ih ys]
    · simp [hq]

theorem hurryInner_eq (fuel : Nat) : ∀ (q : Nat → QueryResultType) (h : Heap) (o : Option Nat),
    hurryInner fuel q h o = firstDefinedAnswer q (specBuriedChain fuel h o) := by
  induction fuel with
  | zero => intro q h o; simp [hurryInner, specBuriedChain, firstDefinedAnswer]
  | succ fuel ih =>
    intro q h o
    cases o with
    | none => simp [hurryInner, specBuriedChain, firstDefinedAnswer]
    | some a =>
      simp only [hurryInner, specBuriedChain, firstDefinedAnswer]
      by_cases hq : q a = ANSWER_UNDEFINED
      · simp [hq, ih]
      · simp [hq]

theorem hurryOuter_eq (fuel : Nat) : ∀ (q : Nat → QueryResultType) (h : Heap) (o : Option Nat),
    hurryOuter fuel q h o = firstDefinedAnswer q (specTraversal fuel h o) := by
  induction fuel with
  | zero => intro q h o; simp [hurryOuter, specTraversal, firstDefinedAnswer]
  | succ fuel ih =>
    intro q h o
    cases o with
    | none => simp [hurryOuter, specTraversal, firstDefinedAnswer]
    | some a =>
      simp only [hurryOuter, specTraversal]
      rw [firstDefinedAnswer_append, hurryInner_eq (fuel + 1) q h (some a), ih]

theorem firstDefinedAnswer_undef : ∀ l : List Nat,
    firstDefinedAnswer (fun _ => ANSWER_UNDEFINED) l = ANSWER_UNDEFINED := by
  intro l
  induction l with
  | nil => rfl
  | cons a l ih => simp [firstDefinedAnswer, ih]

/-- Claim C5: for a non-empty stack, the contextual-query methods of `Behavior`
(embedded here as `ShouldHurry`, the traversal shared by all of them) evaluate
handlers starting at the innermost active child of the top action, then along
that node's buried_under chain, then ascend to the parent and repeat, returning
the first defined (non-sentinel) answer — and the sentinel when no node defines
one.  The conjuncts also check the spec's concrete example: for stack
[leaf child (3) of A (2), A (2), B (1) buried under A] where only B defines an
answer, the query returns B's answer, and the visit order is leaf, A, B. -/
theorem claim_C5 :
    (∀ (fuel : Nat) (q : Nat → QueryResultType) (h : Heap) (a0 : Nat),
      ShouldHurry fuel q h (some a0) =
        firstDefinedAnswer q (specTraversal fuel h (some (findLeaf fuel h a0)))) ∧
    (∀ (fuel : Nat) (h : Heap) (act : Option Nat),
      ShouldHurry fuel (fun _ => ANSWER_UNDEFINED) h act = ANSWER_UNDEFINED) ∧
    ShouldHurry 8 fixQueryQ fixQuery (some 2) = ANSWER_YES ∧
    fixQueryQ 1 = ANSWER_YES ∧ fixQueryQ 2 = ANSWER_UNDEFINED ∧ fixQueryQ 3 = ANSWER_UNDEFINED ∧
    specTraversal 8 fixQuery (some (findLeaf 8 fixQuery 2)) = [3, 2, 1] := by
  refine ⟨?_, ?_, by decide, by decide, by decide, by decide, by decide⟩
  · intro fuel q h a0
    unfold ShouldHurry
    exact hurryOuter_eq fuel q h (some (findLeaf fuel h a0))
  · intro fuel h act
    cases act with
    | none => rfl
    | some a0 =>
      show hurryOuter fuel (fun _ => ANSWER_UNDEFINED) h (some (findLeaf fuel h a0)) = _
      rw [hurryOuter_eq]
      exact firstDefinedAnswer_undef _

/-! ## Single-transition lemmas on canonical driver stacks

Each lemma symbolically runs `Action::ApplyResult` (with the base-class default
hooks) on a canonical suspend stack for one kind of transition and gives the
exact resulting heap, the exact hook/destruction trace, and the new top. -/

theorem apply_continue (fuel : Nat) (hooks : Hooks) (h : Heap) (t : Nat) :
    ApplyResult (fuel + 1) hooks h t Continue = (h, [], some (some t)) := rfl

theorem apply_suspendFor_step (fuel t new : Nat) (bOpt : Option Nat) (T : Heap)
    (hnt : new ≠ t) :
    ApplyResult (fuel + 4) defaultHooks
      ((new, Node.init []) :: (t, stackNode bOpt none false) :: T) t
      ⟨SUSPEND_FOR, some new, none⟩ =
    ((new, stackNode (some t) none false) :: (t, stackNode bOpt (some new) true) :: T,
     [Ev.evOnSuspend t (some new), Ev.evOnStart new (some t)],
     some (some new)) := by
  show ApplyResult (fuel + 3 + 1) _ _ _ _ = _
  simp only [ApplyResult]
  simp [topOfCoveringChain, InvokeOnSuspend, InvokeOnStart, runHookRes, defaultHooks,
    mbind, preTr, lookupH, modifyH, stackNode, Node.init, hnt, Continue,
    ActionResult.IsDone, TryContinue]

theorem apply_changeTo_nil (fuel t new : Nat) (T : Heap) (hnt : new ≠ t)
    (hT : t ∉ keysH T) :
    ApplyResult (fuel + 4) defaultHooks
      ((new, Node.init []) :: (t, stackNode none none false) :: T) t
      ⟨CHANGE_TO, some new, none⟩ =
    ((new, stackNode none none false) :: T,
     [Ev.evOnEnd t (some new), Ev.evOnStart new (some t), Ev.evDestroy t],
     some (some new)) := by
  show ApplyResult (fuel + 3 + 1) _ _ _ _ = _
  simp only [ApplyResult]
  simp [InvokeOnEnd, invokeOnEndChain, InvokeOnStart, destroyAction, destroyChain,
    runHookRes, defaultHooks, mbind, preTr, lookupH, modifyH, removeH, stackNode,
    Node.init, hnt, Ne.symm hnt, Continue, ChangeTo, TryContinue,
    removeH_eq_self_of_not_mem T t hT]

theorem apply_changeTo_cons (fuel t new b : Nat) (bn : Node) (T2 : Heap)
    (hnt : new ≠ t) (hnb : new ≠ b) (htb : t ≠ b) (hT : t ∉ keysH T2) :
    ApplyResult (fuel + 4) defaultHooks
      ((new, Node.init []) :: (t, stackNode (some b) none false) :: (b, bn) :: T2) t
      ⟨CHANGE_TO, some new, none⟩ =
    ((new, stackNode (some b) none false) :: (b, { bn with m_coveringMe := none }) :: T2,
     [Ev.evOnEnd t (some new), Ev.evOnStart new (some t), Ev.evDestroy t],
     some (some new)) := by
  show ApplyResult (fuel + 3 + 1) _ _ _ _ = _
  simp only [ApplyResult]
  simp [InvokeOnEnd, invokeOnEndChain, InvokeOnStart, destroyAction, destroyChain,
    runHookRes, defaultHooks, mbind, preTr, lookupH, modifyH, removeH, stackNode,
    Node.init, hnt, Ne.symm hnt, hnb, Ne.symm hnb, htb, Ne.symm htb, Continue, ChangeTo,
    TryContinue, removeH_eq_self_of_not_mem T2 t hT]

theorem apply_done_nil (fuel t : Nat) (T : Heap) (hT : t ∉ keysH T) :
    ApplyResult (fuel + 4) defaultHooks ((t, stackNode none none false) :: T) t
      ⟨DONE, none, none⟩ =
    (T, [Ev.evOnEnd t none, Ev.evDestroy t], some none) := by
  show ApplyResult (fuel + 3 + 1) _ _ _ _ = _
  simp only [ApplyResult]
  simp [InvokeOnEnd, invokeOnEndChain, destroyAction, destroyChain, runHookRes,
    defaultHooks, mbind, preTr, lookupH, modifyH, removeH, stackNode, Node.init,
    Continue, TryContinue, removeH_eq_self_of_not_mem T t hT]

theorem apply_done_cons (fuel t b : Nat) (bb cv : Option Nat) (T2 : Heap)
    (htb : t ≠ b) (hT : t ∉ keysH T2) :
    ApplyResult (fuel + 4) defaultHooks
      ((t, stackNode (some b) none false) :: (b, stackNode bb cv true) :: T2) t
      ⟨DONE, none, none⟩ =
    ((b, stackNode bb none false) :: T2,
     [Ev.evOnEnd t (some b), Ev.evOnResume b (some t), Ev.evDestroy t],
     some (some b)) := by
  show ApplyResult (fuel + 3 + 1) _ _ _ _ = _
  simp only [ApplyResult]
  simp [InvokeOnEnd, invokeOnEndChain, InvokeOnResume, destroyAction, destroyChain,
    runHookRes, defaultHooks, mbind, preTr, lookupH, modifyH, removeH, stackNode,
    Node.init, htb, Ne.symm htb, Continue, TryContinue,
    EventDesiredResult.IsRequestingChange, removeH_eq_self_of_not_mem T2 t hT]

theorem clearSlot_stackNode (b c : Option Nat) (sp : Bool) :
    ({ stackNode b c sp with m_eventResult := TryContinue RESULT_NONE } : Node) =
      stackNode b c sp := by
  simp [stackNode]

/-! ## Whole-driver step lemmas: one transition command on a canonical stack -/

theorem stepCmd_continue (s : DrvState) (t : Nat) (rest : List Nat) (flags : List Bool)
    (hrep : heapRepr s (t :: rest) flags) :
    stepCmd s .cmdContinue = s := by
  obtain ⟨hheap, htop, ⟨hpw, hbound⟩, hstuck⟩ := hrep
  have htop2 : s.top = some t := by rw [htop]; rfl
  simp only [stepCmd, htop2]
  simp only [runApply, show FUEL = 63 + 1 from rfl, apply_continue]
  cases s
  simp_all

theorem stepCmd_suspendFor (s : DrvState) (t : Nat) (rest : List Nat) (flags : List Bool)
    (hrep : heapRepr s (t :: rest) flags) :
    stepCmd s .cmdSuspendFor =
      { heap := buildHeapTop (s.cnt :: t :: rest) (true :: flags)
        top := some s.cnt
        cnt := s.cnt + 1
        tr := s.tr ++ [Ev.evOnSuspend t (some s.cnt), Ev.evOnStart s.cnt (some t)]
        stuck := false } := by
  obtain ⟨hheap, htop, ⟨hpw, hbound⟩, hstuck⟩ := hrep
  have htc : t < s.cnt := hbound t (by simp)
  have hnt : s.cnt ≠ t := by omega
  have htop2 : s.top = some t := by rw [htop]; rfl
  simp only [stepCmd, htop2]
  rw [hheap]
  simp only [buildHeapTop, SuspendFor]
  rw [modifyH_cons_ne _ _ _ _ _ hnt, modifyH_cons_self]
  rw [clearSlot_stackNode]
  simp only [runApply, show FUEL = 60 + 4 from rfl]
  rw [apply_suspendFor_step 60 t s.cnt rest.head? (buildHeapTail t rest flags) hnt]
  simp [buildHeapTop, buildHeapTail, hstuck]

theorem stepCmd_changeTo (s : DrvState) (t : Nat) (rest : List Nat) (flags : List Bool)
    (hrep : heapRepr s (t :: rest) flags) :
    stepCmd s .cmdChangeTo =
      { heap := buildHeapTop (s.cnt :: rest) (false :: flags.tail)
        top := some s.cnt
        cnt := s.cnt + 1
        tr := s.tr ++ [Ev.evOnEnd t (some s.cnt), Ev.evOnStart s.cnt (some t), Ev.evDestroy t]
        stuck := false } := by
  obtain ⟨hheap, htop, ⟨hpw, hbound⟩, hstuck⟩ := hrep
  have htc : t < s.cnt := hbound t (by simp)
  have hnt : s.cnt ≠ t := by omega
  have htop2 : s.top = some t := by rw [htop]; rfl
  simp only [stepCmd, htop2]
  rw [hheap]
  cases rest with
  | nil =>
    simp only [buildHeapTop, buildHeapTail, List.head?]
    simp only [runApply, ChangeTo, show FUEL = 60 + 4 from rfl]
    rw [apply_changeTo_nil 60 t s.cnt [] hnt (by simp [keysH])]
    simp [buildHeapTop, buildHeapTail, hstuck]
  | cons b r2 =>
    have hbt : b < t := List.rel_of_pairwise_cons hpw (by simp)
    have hbc : b < s.cnt := hbound b (by simp)
    have htb : t ≠ b := by omega
    have hnb : s.cnt ≠ b := by omega
    have htr2 : t ∉ r2 := by
      intro hmem
      have := List.rel_of_pairwise_cons hpw (List.mem_cons_of_mem b hmem)
      omega
    have hkeys : t ∉ keysH (buildHeapTail b r2 flags.tail) := by
      rw [keysH_buildHeapTail]
      exact htr2
    simp only [buildHeapTop, buildHeapTail, List.head?]
    simp only [runApply, ChangeTo, show FUEL = 60 + 4 from rfl]
    rw [apply_changeTo_cons 60 t s.cnt b _ (buildHeapTail b r2 flags.tail) hnt hnb htb hkeys]
    simp [buildHeapTop, buildHeapTail, stackNode, hstuck]

theorem stepCmd_done_nil (s : DrvState) (t : Nat) (flags : List Bool)
    (hrep : heapRepr s [t] flags) :
    stepCmd s .cmdDone =
      { heap := []
        top := none
        cnt := s.cnt
        tr := s.tr ++ [Ev.evOnEnd t none, Ev.evDestroy t]
        stuck := false } := by
  obtain ⟨hheap, htop, ⟨hpw, hbound⟩, hstuck⟩ := hrep
  have htop2 : s.top = some t := by rw [htop]; rfl
  simp only [stepCmd, htop2]
  rw [hheap]
  simp only [buildHeapTop, buildHeapTail, List.head?]
  simp only [runApply, Done, show FUEL = 60 + 4 from rfl]
  rw [apply_done_nil 60 t [] (by simp [keysH])]
  simp [hstuck]

theorem stepCmd_done_cons (s : DrvState) (t b : Nat) (r2 : List Nat) (flags : List Bool)
    (hrep : heapRepr s (t :: b :: r2) flags) :
    stepCmd s .cmdDone =
      { heap := buildHeapTop (b :: r2) flags.tail
        top := some b
        cnt := s.cnt
        tr := s.tr ++ [Ev.evOnEnd t (some b), Ev.evOnResume b (some t), Ev.evDestroy t]
        stuck := false } := by
  obtain ⟨hheap, htop, ⟨hpw, hbound⟩, hstuck⟩ := hrep
  have hbt : b < t := List.rel_of_pairwise_cons hpw (by simp)
  have htb : t ≠ b := by omega
  have htr2 : t ∉ r2 := by
    intro hmem
    have := List.rel_of_pairwise_cons hpw (List.mem_cons_of_mem b hmem)
    omega
  have hkeys : t ∉ keysH (buildHeapTail b r2 flags.tail) := by
    rw [keysH_buildHeapTail]
    exact htr2
  have htop2 : s.top = some t := by rw [htop]; rfl
  simp only [stepCmd, htop2]
  rw [hheap]
  simp only [buildHeapTop, buildHeapTail, List.head?]
  simp only [runApply, Done, show FUEL = 60 + 4 from rfl]
  rw [apply_done_cons 60 t b _ _ (buildHeapTail b r2 flags.tail) htb hkeys]
  simp [buildHeapTop, buildHeapTail, hstuck]

/-! ## Trace bookkeeping lemmas -/

theorem lifeTrace_append (n : Nat) (t1 t2 : Trace) :
    lifeTrace n (t1 ++ t2) = lifeTrace n t1 ++ lifeTrace n t2 := by
  simp [lifeTrace]

theorem lifoFold_append (t1 t2 : Trace) :
    lifoFold (t1 ++ t2) = List.foldl lifoStep (lifoFold t1) t2 := by
  simp [lifoFold]

theorem initState_eq :
    initState =
      { heap := [(0, stackNode none none false)]
        top := some 0
        cnt := 1
        tr := [Ev.evOnStart 0 (some 0)]
        stuck := false } := by
  decide

theorem initState_inv : Inv initState := by
  rw [initState_eq]
  refine ⟨[0], [], ⟨rfl, rfl, ⟨by decide, by decide⟩, rfl⟩, by decide, ?_⟩
  show lifeInv [Ev.evOnStart 0 (some 0)] [0] 1
  intro n
  refine ⟨?_, ?_, ?_⟩
  · intro hmem
    simp only [List.mem_singleton] at hmem
    subst hmem
    decide
  · intro hlt hnmem
    exfalso
    apply hnmem
    simp only [List.mem_singleton]
    omega
  · intro hge
    have hne : (0 : Nat) ≠ n := by omega
    simp [lifeTrace, lifeOf, hne]

theorem stepCmd_inv (s : DrvState) (c : Cmd) (hinv : Inv s) : Inv (stepCmd s c) := by
  obtain ⟨stack, flags, hrep, hfold, hlife⟩ := hinv
  cases stack with
  | nil =>
    have htop : s.top = none := by rw [hrep.2.1]; rfl
    have hid : stepCmd s c = s := by cases c <;> simp [stepCmd, htop]
    rw [hid]
    exact ⟨[], flags, hrep, hfold, hlife⟩
  | cons t rest =>
    have hpw := hrep.2.2.1.1
    have hbound := hrep.2.2.1.2
    have htc : t < s.cnt := hbound t (by simp)
    have hct : s.cnt ≠ t := by omega
    have htc2 : t ≠ s.cnt := by omega
    cases c with
    | cmdContinue =>
      rw [stepCmd_continue s t rest flags hrep]
      exact ⟨t :: rest, flags, hrep, hfold, hlife⟩
    | cmdSuspendFor =>
      rw [stepCmd_suspendFor s t rest flags hrep]
      refine ⟨s.cnt :: t :: rest, true :: flags, ⟨rfl, rfl, ⟨?_, ?_⟩, rfl⟩, ?_, ?_⟩
      · exact List.Pairwise.cons (fun x hx => hbound x hx) hpw
      · show ∀ i ∈ s.cnt :: t :: rest, i < s.cnt + 1
        intro i hi
        simp only [List.mem_cons] at hi
        rcases hi with h1 | h1 | h1
        · omega
        · omega
        · have := hbound i (by simp [h1]); omega
      · show lifoFold (s.tr ++ [Ev.evOnSuspend t (some s.cnt), Ev.evOnStart s.cnt (some t)]) =
          some (s.cnt :: t :: rest)
        rw [lifoFold_append, hfold]
        simp [lifoStep]
      · show lifeInv (s.tr ++ [Ev.evOnSuspend t (some s.cnt), Ev.evOnStart s.cnt (some t)])
          (s.cnt :: t :: rest) (s.cnt + 1)
        intro n
        obtain ⟨hlive, hdead, hfresh⟩ := hlife n
        refine ⟨?_, ?_, ?_⟩
        · intro hmem
          rw [lifeTrace_append]
          simp only [List.mem_cons] at hmem
          rcases hmem with h1 | h1 | h1
          · subst h1
            rw [hfresh (le_refl _)]
            simp [lifeTrace, lifeOf, htc2]
          · subst h1
            rw [hlive (by simp)]
            simp [lifeTrace, lifeOf, hct]
          · have hn : n < s.cnt := hbound n (by simp [h1])
            have hnt : t ≠ n := by
              intro he
              subst he
              have := List.rel_of_pairwise_cons hpw h1
              omega
            rw [hlive (by simp [h1])]
            simp [lifeTrace, lifeOf, show s.cnt ≠ n by omega, hnt]
        · intro hlt hnmem
          rw [lifeTrace_append]
          simp only [List.mem_cons, not_or] at hnmem
          obtain ⟨hne1, hne2, hne3⟩ := hnmem
          have hn : n < s.cnt := by omega
          rw [hdead hn (by simp [hne2, hne3])]
          simp [lifeTrace, lifeOf, Ne.symm hne1, show t ≠ n from Ne.symm hne2]
        · intro hge
          rw [lifeTrace_append]
          have hn1 : s.cnt ≠ n := by omega
          have hn2 : t ≠ n := by omega
          rw [hfresh (by omega)]
          simp [lifeTrace, lifeOf, hn1, hn2]
    | cmdChangeTo =>
      rw [stepCmd_changeTo s t rest flags hrep]
      have htrest : t ∉ rest := by
        intro hmem
        have := List.rel_of_pairwise_cons hpw hmem
        omega
      refine ⟨s.cnt :: rest, false :: flags.tail, ⟨rfl, rfl, ⟨?_, ?_⟩, rfl⟩, ?_, ?_⟩
      · exact List.Pairwise.cons (fun x hx => hbound x (by simp [hx])) (List.Pairwise.of_cons hpw)
      · show ∀ i ∈ s.cnt :: rest, i < s.cnt + 1
        intro i hi
        simp only [List.mem_cons] at hi
        rcases hi with h1 | h1
        · omega
        · have := hbound i (by simp [h1]); omega
      · show lifoFold (s.tr ++
            [Ev.evOnEnd t (some s.cnt), Ev.evOnStart s.cnt (some t), Ev.evDestroy t]) =
          some (s.cnt :: rest)
        rw [lifoFold_append, hfold]
        simp [lifoStep]
      · show lifeInv (s.tr ++
            [Ev.evOnEnd t (some s.cnt), Ev.evOnStart s.cnt (some t), Ev.evDestroy t])
          (s.cnt :: rest) (s.cnt + 1)
        intro n
        obtain ⟨hlive, hdead, hfresh⟩ := hlife n
        refine ⟨?_, ?_, ?_⟩
        · intro hmem
          rw [lifeTrace_append]
          simp only [List.mem_cons] at hmem
          rcases hmem with h1 | h1
          · subst h1
            rw [hfresh (le_refl _)]
            simp [lifeTrace, lifeOf, htc2]
          · have hn : n < s.cnt := hbound n (by simp [h1])
            have hnt : t ≠ n := by
              intro he
              subst he
              exact htrest h1
            rw [hlive (by simp [h1])]
            simp [lifeTrace, lifeOf, show s.cnt ≠ n by omega, hnt]
        · intro hlt hnmem
          rw [lifeTrace_append]
          simp only [List.mem_cons, not_or] at hnmem
          obtain ⟨hne1, hne2⟩ := hnmem
          by_cases hnt : n = t
          · subst hnt
            rw [hlive (by simp)]
            simp [lifeTrace, lifeOf, hct]
          · have hn : n < s.cnt := by omega
            rw [hdead hn (by simp [hne2, hnt])]
            simp [lifeTrace, lifeOf, Ne.symm hne1, show t ≠ n from fun h => hnt (Eq.symm h)]
        · intro hge
          rw [lifeTrace_append]
          have hn1 : s.cnt ≠ n := by omega
          have hn2 : t ≠ n := by omega
          rw [hfresh (by omega)]
          simp [lifeTrace, lifeOf, hn1, hn2]
    | cmdDone =>
      cases rest with
      | nil =>
        rw [stepCmd_done_nil s t flags hrep]
        refine ⟨[], [], ⟨rfl, rfl, ⟨by simp, by simp⟩, rfl⟩, ?_, ?_⟩
        · show lifoFold (s.tr ++ [Ev.evOnEnd t none, Ev.evDestroy t]) = some []
          rw [lifoFold_append, hfold]
          simp [lifoStep]
        · show lifeInv (s.tr ++ [Ev.evOnEnd t none, Ev.evDestroy t]) [] s.cnt
          intro n
          obtain ⟨hlive, hdead, hfresh⟩ := hlife n
          refine ⟨by simp, ?_, ?_⟩
          · intro hlt _
            rw [lifeTrace_append]
            by_cases hnt : n = t
            · subst hnt
              rw [hlive (by simp)]
              simp [lifeTrace, lifeOf]
            · rw [hdead hlt (by simp [hnt])]
              simp [lifeTrace, lifeOf, show t ≠ n from fun h => hnt (Eq.symm h)]
          · intro hge
            rw [lifeTrace_append]
            have hn2 : t ≠ n := by omega
            rw [hfresh hge]
            simp [lifeTrace, lifeOf, hn2]
      | cons b r2 =>
        rw [stepCmd_done_cons s t b r2 flags hrep]
        have hbt : b < t := List.rel_of_pairwise_cons hpw (by simp)
        have htrest : t ∉ b :: r2 := by
          intro hmem
          have := List.rel_of_pairwise_cons hpw hmem
          omega
        refine ⟨b :: r2, flags.tail, ⟨rfl, rfl, ⟨List.Pairwise.of_cons hpw, ?_⟩, rfl⟩, ?_, ?_⟩
        · show ∀ i ∈ b :: r2, i < s.cnt
          intro i hi
          exact hbound i (by simp [hi])
        · show lifoFold (s.tr ++
              [Ev.evOnEnd t (some b), Ev.evOnResume b (some t), Ev.evDestroy t]) =
            some (b :: r2)
          rw [lifoFold_append, hfold]
          simp [lifoStep]
        · show lifeInv (s.tr ++
              [Ev.evOnEnd t (some b), Ev.evOnResume b (some t), Ev.evDestroy t])
            (b :: r2) s.cnt
          intro n
          obtain ⟨hlive, hdead, hfresh⟩ := hlife n
          refine ⟨?_, ?_, ?_⟩
          · intro hmem
            have hnt : t ≠ n := by
              intro he
              subst he
              exact htrest hmem
            rw [lifeTrace_append, hlive (by simp [hmem])]
            simp [lifeTrace, lifeOf, hnt]
          · intro hlt hnmem
            rw [lifeTrace_append]
            by_cases hnt : n = t
            · subst hnt
              rw [hlive (by simp)]
              simp [lifeTrace, lifeOf]
            · rw [hdead hlt (by simp [hnmem, hnt])]
              simp [lifeTrace, lifeOf, show t ≠ n from fun h => hnt (Eq.symm h)]
          · intro hge
            rw [lifeTrace_append]
            have hn2 : t ≠ n := by omega
            rw [hfresh hge]
            simp [lifeTrace, lifeOf, hn2]

theorem foldl_inv (cs : List Cmd) : ∀ s : DrvState, Inv s → Inv (cs.foldl stepCmd s) := by
  induction cs with
  | nil => intro s h; exact h
  | cons c cs ih => intro s h; exact ih (stepCmd s c) (stepCmd_inv s c h)

theorem runCmds_inv (cs : List Cmd) : Inv (runCmds cs) :=
  foldl_inv cs initState initState_inv

/-- Counterexample to claim C4 as stated: when an action supplies an initial
contained action (`m_child = InitialContainedAction(me)` in `InvokeOnStart`,
which starts the child before the parent's `OnStart` runs, while `InvokeOnEnd`
also cascades into children first), a single `ChangeTo` transition followed by
`Done` yields start calls in order [child 1, parent 0] and end calls in the
same order [1, 0] — not the strict reverse [0, 1] — and the run fails the
LIFO matching check (`lifoFold` reports a mismatch). -/
theorem claim_C4_counterexample :
    childRun.filterMap evStartWho = [1, 0] ∧
    childRun.filterMap evEndWho = [1, 0] ∧
    childRun.filterMap evEndWho ≠ (childRun.filterMap evStartWho).reverse ∧
    lifoFold childRun = none := by
  refine ⟨by decide, by decide, by decide, by decide⟩

/-- Claim C4, amended: over any sequence of transitions applied through
`Action::ApplyResult` among actions that supply no initial contained action
(the driver runs below, whose actions all use the base-class default hooks),
every node that received a start call receives exactly one end call before its
destruction, and end calls occur in strict reverse order of the corresponding
start calls.  Formally, for every driver run: the start/end events pass the
LIFO matching check (`lifoFold` succeeds — every end call ends the most
recently started not-yet-ended node — and returns exactly the live stack,
whose head is the current top); every live node's lifecycle history is exactly
[start]; every other node's history is either empty (never started) or exactly
[start, end, destruction], in that order.  The middle conjuncts check the
spec's example: starting A (0), then B (1), then C (2), then finishing all
three yields starts in order [0, 1, 2] and end calls in exactly the reverse
order [2, 1, 0].  When an action does supply an initial contained action, the
nesting is started child-first and also ended child-first: the final conjuncts
show the child's start and end both precede the parent's ([1, 0] each), so
start and end order coincide there instead of reversing. -/
theorem claim_C4 :
    (∀ cs : List Cmd, ∃ stack : List Nat,
      (runCmds cs).top = stack.head? ∧
      lifoFold (runCmds cs).tr = some stack ∧
      (∀ n, n ∈ stack → lifeTrace n (runCmds cs).tr = [LS]) ∧
      (∀ n, n ∉ stack → lifeTrace n (runCmds cs).tr = [] ∨
        lifeTrace n (runCmds cs).tr = [LS, LE, LD])) ∧
    (runCmds [.cmdSuspendFor, .cmdSuspendFor, .cmdDone, .cmdDone,
      .cmdDone]).tr.filterMap evStartWho = [0, 1, 2] ∧
    (runCmds [.cmdSuspendFor, .cmdSuspendFor, .cmdDone, .cmdDone,
      .cmdDone]).tr.filterMap evEndWho = [2, 1, 0] ∧
    childRun.filterMap evStartWho = [1, 0] ∧
    childRun.filterMap evEndWho = [1, 0] := by
  refine ⟨?_, by decide, by decide, by decide, by decide⟩
  intro cs
  obtain ⟨stack, flags, hrep, hfold, hlife⟩ := runCmds_inv cs
  refine ⟨stack, hrep.2.1, hfold, fun n hm => (hlife n).1 hm, fun n hnm => ?_⟩
  by_cases hlt : n < (runCmds cs).cnt
  · exact Or.inr ((hlife n).2.1 hlt hnm)
  · exact Or.inl ((hlife n).2.2 (by omega))

/-- Witness for C4: in the run suspend-then-done, node 1 was started, ended and
destroyed, with lifecycle history exactly [start, end, destruction]. -/
theorem claim_C4_witness :
    lifeTrace 1 (runCmds [Cmd.cmdSuspendFor, Cmd.cmdDone]).tr = [LS, LE, LD] := by
  obtain ⟨stack, htop, hfold, hlive, hdead⟩ := claim_C4.1 [Cmd.cmdSuspendFor, Cmd.cmdDone]
  have hconc : lifoFold (runCmds [Cmd.cmdSuspendFor, Cmd.cmdDone]).tr = some [0] := by decide
  rw [hconc] at hfold
  have hstack : stack = [0] := by
    injection hfold.symm
  subst hstack
  have h1 : (1 : Nat) ∉ [0] := by decide
  rcases hdead 1 h1 with hempty | hfull
  · have hne : lifeTrace 1 (runCmds [Cmd.cmdSuspendFor, Cmd.cmdDone]).tr ≠ [] := by decide
    exact absurd hempty hne
  · exact hfull

/-- Claim C1: from any reachable stack whose active top is `a`, suspending `a`
for a new action X (`SuspendFor(X)`) and then applying a `Done` result from X
resumes `a`.  The emitted hook sequence is exactly on_suspend(a, X),
on_start(X, a), on_end(X, a), on_resume(a, X), in that order (followed only by
the destruction of X); on_resume(a) is invoked exactly once, with no update of
`a` before `a`'s next update; `a` is never destroyed and is again the started,
unsuspended top of the stack. -/
theorem claim_C1 (cs : List Cmd) (a : Nat) (htop : (runCmds cs).top = some a) :
    stepCmd (stepCmd (runCmds cs) Cmd.cmdSuspendFor) Cmd.cmdDone =
      { heap := (stepCmd (stepCmd (runCmds cs) Cmd.cmdSuspendFor) Cmd.cmdDone).heap
        top := some a
        cnt := (runCmds cs).cnt + 1
        tr := (runCmds cs).tr ++
          [Ev.evOnSuspend a (some (runCmds cs).cnt),
           Ev.evOnStart (runCmds cs).cnt (some a),
           Ev.evOnEnd (runCmds cs).cnt (some a),
           Ev.evOnResume a (some (runCmds cs).cnt),
           Ev.evDestroy (runCmds cs).cnt]
        stuck := false } ∧
    (∃ nd, lookupH (stepCmd (stepCmd (runCmds cs) Cmd.cmdSuspendFor) Cmd.cmdDone).heap a =
      some nd ∧ nd.m_isStarted = true ∧ nd.m_isSuspended = false) ∧
    List.count (Ev.evOnResume a (some (runCmds cs).cnt))
      [Ev.evOnSuspend a (some (runCmds cs).cnt),
       Ev.evOnStart (runCmds cs).cnt (some a),
       Ev.evOnEnd (runCmds cs).cnt (some a),
       Ev.evOnResume a (some (runCmds cs).cnt),
       Ev.evDestroy (runCmds cs).cnt] = 1 ∧
    Ev.evDestroy a ∉
      [Ev.evOnSuspend a (some (runCmds cs).cnt),
       Ev.evOnStart (runCmds cs).cnt (some a),
       Ev.evOnEnd (runCmds cs).cnt (some a),
       Ev.evOnResume a (some (runCmds cs).cnt),
       Ev.evDestroy (runCmds cs).cnt] ∧
    Ev.evUpdate a ∉
      [Ev.evOnSuspend a (some (runCmds cs).cnt),
       Ev.evOnStart (runCmds cs).cnt (some a),
       Ev.evOnEnd (runCmds cs).cnt (some a),
       Ev.evOnResume a (some (runCmds cs).cnt),
       Ev.evDestroy (runCmds cs).cnt] := by
  obtain ⟨stack, flags, hrep, hfold, hlife⟩ := runCmds_inv cs
  cases stack with
  | nil =>
    exfalso
    rw [hrep.2.1] at htop
    cases htop
  | cons t rest =>
    have hta : t = a := by
      rw [hrep.2.1] at htop
      simp only [List.head?_cons, Option.some.injEq] at htop
      exact htop
    subst hta
    have htc : t < (runCmds cs).cnt := hrep.2.2.1.2 t (by simp)
    have hat : t ≠ (runCmds cs).cnt := by omega
    rw [stepCmd_suspendFor (runCmds cs) t rest flags hrep]
    have hrep1 : heapRepr
        { heap := buildHeapTop ((runCmds cs).cnt :: t :: rest) (true :: flags)
          top := some (runCmds cs).cnt
          cnt := (runCmds cs).cnt + 1
          tr := (runCmds cs).tr ++
            [Ev.evOnSuspend t (some (runCmds cs).cnt), Ev.evOnStart (runCmds cs).cnt (some t)]
          stuck := false }
        ((runCmds cs).cnt :: t :: rest) (true :: flags) := by
      refine ⟨rfl, rfl, ⟨?_, ?_⟩, rfl⟩
      · exact List.Pairwise.cons (fun x hx => hrep.2.2.1.2 x hx) hrep.2.2.1.1
      · show ∀ i ∈ (runCmds cs).cnt :: t :: rest, i < (runCmds cs).cnt + 1
        intro i hi
        simp only [List.mem_cons] at hi
        rcases hi with h1 | h1 | h1
        · omega
        · omega
        · have := hrep.2.2.1.2 i (by simp [h1]); omega
    rw [stepCmd_done_cons _ (runCmds cs).cnt t rest (true :: flags) hrep1]
    refine ⟨?_, ?_, ?_, ?_, ?_⟩
    · simp
    · refine ⟨stackNode rest.head? none false, ?_, rfl, rfl⟩
      simp [buildHeapTop]
    · simp [List.count_cons, hat]
    · simp [hat]
    · simp

/-- Witness for C1 on the singleton initial stack: a = 0, X = 1. -/
theorem claim_C1_witness :
    (runCmds []).top = some 0 ∧
    (∃ nd, lookupH (stepCmd (stepCmd (runCmds []) Cmd.cmdSuspendFor) Cmd.cmdDone).heap 0 =
      some nd ∧ nd.m_isStarted = true ∧ nd.m_isSuspended = false) := by
  refine ⟨by decide, ?_⟩
  exact (claim_C1 [] 0 (by decide)).2.1

/-- Counterexample to claim C8 as stated: on the stack [1 (C), 0 (B)], applying
`ChangeTo` (creating next = 2) destroys C and puts 2 in its place with
`m_buriedUnderMe = 0`, but B's covering link is cleared to null by C's destructor
— it does not point at next (2) as the claim requires. -/
theorem claim_C8_counterexample :
    (lookupH (stepCmd (runCmds [Cmd.cmdSuspendFor]) Cmd.cmdChangeTo).heap 0).map
      Node.m_coveringMe = some none ∧
    (some (none : Option Nat)) ≠ some (some 2) ∧
    (stepCmd (runCmds [Cmd.cmdSuspendFor]) Cmd.cmdChangeTo).top = some 2 ∧
    ((lookupH (stepCmd (runCmds [Cmd.cmdSuspendFor]) Cmd.cmdChangeTo).heap 2).bind
      Node.m_buriedUnderMe) = some 0 := by
  refine ⟨by decide, by decide, by decide, by decide⟩

/-- Claim C8, amended: for every reachable node C with a non-null buried action
B, applying `ChangeTo(next)` on C destroys C but not B; afterwards next is on the
stack in C's place (it is the new top), next's `m_buriedUnderMe` equals B — but
B's covering back-link is cleared to null by C's destructor (which runs after
`InvokeOnStart` set it to next), so it does not point at next. -/
theorem claim_C8 (cs : List Cmd) (c b : Nat)
    (htop : (runCmds cs).top = some c)
    (hbur : ((lookupH (runCmds cs).heap c).bind Node.m_buriedUnderMe) = some b) :
    (stepCmd (runCmds cs) Cmd.cmdChangeTo).tr =
      (runCmds cs).tr ++
        [Ev.evOnEnd c (some (runCmds cs).cnt),
         Ev.evOnStart (runCmds cs).cnt (some c),
         Ev.evDestroy c] ∧
    lookupH (stepCmd (runCmds cs) Cmd.cmdChangeTo).heap c = none ∧
    (stepCmd (runCmds cs) Cmd.cmdChangeTo).top = some (runCmds cs).cnt ∧
    (∃ nb, lookupH (stepCmd (runCmds cs) Cmd.cmdChangeTo).heap b = some nb ∧
      nb.m_coveringMe = none) ∧
    ((lookupH (stepCmd (runCmds cs) Cmd.cmdChangeTo).heap (runCmds cs).cnt).bind
      Node.m_buriedUnderMe) = some b := by
  obtain ⟨stack, flags, hrep, hfold, hlife⟩ := runCmds_inv cs
  cases stack with
  | nil =>
    exfalso
    rw [hrep.2.1] at htop
    cases htop
  | cons t rest =>
    have hta : t = c := by
      rw [hrep.2.1] at htop
      simp only [List.head?_cons, Option.some.injEq] at htop
      exact htop
    subst hta
    have hlookt : lookupH (runCmds cs).heap t = some (stackNode rest.head? none false) := by
      rw [hrep.1]
      simp [buildHeapTop]
    rw [hlookt] at hbur
    simp only [Option.some_bind] at hbur
    cases rest with
    | nil =>
      exfalso
      simp [stackNode] at hbur
    | cons b2 r2 =>
      have hb2 : b = b2 := by
        simp [stackNode] at hbur
        exact hbur.symm
      subst hb2
      have hpw := hrep.2.2.1.1
      have hbound := hrep.2.2.1.2
      have htc : t < (runCmds cs).cnt := hbound t (by simp)
      have hbt : b < t := List.rel_of_pairwise_cons hpw (by simp)
      have hbc : b < (runCmds cs).cnt := hbound b (by simp)
      have htr2 : t ∉ r2 := by
        intro hmem
        have := List.rel_of_pairwise_cons hpw (List.mem_cons_of_mem b hmem)
        omega
      rw [stepCmd_changeTo (runCmds cs) t (b :: r2) flags hrep]
      refine ⟨rfl, ?_, rfl, ?_, ?_⟩
      · apply lookupH_eq_none_of_not_mem
        rw [keysH_buildHeapTop]
        simp only [List.mem_cons, not_or]
        exact ⟨by omega, by omega, htr2⟩
      · refine ⟨stackNode r2.head? none true, ?_, rfl⟩
        show lookupH (buildHeapTop ((runCmds cs).cnt :: b :: r2) (false :: flags.tail)) b =
          some (stackNode r2.head? none true)
        simp only [buildHeapTop, buildHeapTail]
        rw [lookupH_cons_ne _ _ _ _ (by omega)]
        simp
      · show ((lookupH (buildHeapTop ((runCmds cs).cnt :: b :: r2) (false :: flags.tail))
          (runCmds cs).cnt).bind Node.m_buriedUnderMe) = some b
        simp [buildHeapTop, stackNode]

/-- Witness for the amended C8 on the stack [1, 0]: C = 1, B = 0, next = 2. -/
theorem claim_C8_witness :
    lookupH (stepCmd (runCmds [Cmd.cmdSuspendFor]) Cmd.cmdChangeTo).heap 1 = none :=
  (claim_C8 [Cmd.cmdSuspendFor] 1 0 (by decide) (by decide)).2.1

end NextBot
